import Mathlib

/-!
Verification of the MIDX (multi-pack-index) and sparse-index subsystems of
this repository (midx.c, midx.h, sparse-index.c).  The C code is shallowly
embedded: byte strings become `List Nat` (each element a byte value), machine
integers become `Nat` with explicit `% 2^32` where the C truncates, fallible
paths (`die`, `BUG`) become `Option`, and the little state that matters is
passed explicitly.  Where a claim depends on code of the repository that is
not present under src/ (the builder's entry-collecting caller, the cache-tree
navigator, the tree-object reader, the content hash), a definition modelled
from the spec stands in; each such definition says so in its doc comment.
-/

namespace GitMidx

/-- Byte-string comparison: the embedding of `memcmp`/`hashcmp`/`oidcmp` (and
of `strcmp` on NUL-free strings) as a three-way lexicographic comparison of
byte lists. -/
def bytesCmp : List Nat → List Nat → Ordering
  | [], [] => .eq
  | [], _ :: _ => .lt
  | _ :: _, [] => .gt
  | a :: as, b :: bs =>
    match compare a b with
    | .eq => bytesCmp as bs
    | .lt => .lt
    | .gt => .gt

theorem natCompare_self (n : Nat) : compare n n = .eq :=
  Nat.compare_eq_eq.mpr rfl

theorem bytesCmp_self (a : List Nat) : bytesCmp a a = .eq := by
  induction a with
  | nil => rfl
  | cons x xs ih => simp [bytesCmp, natCompare_self, ih]

theorem bytesCmp_eq_iff {a b : List Nat} : bytesCmp a b = .eq ↔ a = b := by
  constructor
  · intro h
    induction a generalizing b with
    | nil => cases b with
      | nil => rfl
      | cons y ys => simp [bytesCmp] at h
    | cons x xs ih =>
      cases b with
      | nil => simp [bytesCmp] at h
      | cons y ys =>
        rcases hc : compare x y with h1 | h1 | h1 <;> simp [bytesCmp, hc] at h
        rcases Nat.compare_eq_eq.mp hc with rfl
        exact congrArg (x :: ·) (ih h)
  · rintro rfl; exact bytesCmp_self a

theorem bytesCmp_swap (a b : List Nat) : bytesCmp b a = (bytesCmp a b).swap := by
  induction a generalizing b with
  | nil => cases b <;> simp [bytesCmp, Ordering.swap]
  | cons x xs ih =>
    cases b with
    | nil => simp [bytesCmp, Ordering.swap]
    | cons y ys =>
      rcases h : compare x y with h1 | h1 | h1
      · have h2 : compare y x = .gt := Nat.compare_eq_gt.mpr (Nat.compare_eq_lt.mp h)
        simp [bytesCmp, h, h2, Ordering.swap]
      · rcases Nat.compare_eq_eq.mp h with rfl
        simp [bytesCmp, natCompare_self, ih]
      · have h2 : compare y x = .lt := Nat.compare_eq_lt.mpr (Nat.compare_eq_gt.mp h)
        simp [bytesCmp, h, h2, Ordering.swap]

theorem bytesCmp_lt_trans {a b c : List Nat}
    (h1 : bytesCmp a b = .lt) (h2 : bytesCmp b c = .lt) :
    bytesCmp a c = .lt := by
  induction a generalizing b c with
  | nil =>
    cases b with
    | nil => simp [bytesCmp] at h1
    | cons y ys => cases c with
      | nil => simp [bytesCmp] at h2
      | cons z zs => simp [bytesCmp]
  | cons x xs ih =>
    cases b with
    | nil => simp [bytesCmp] at h1
    | cons y ys =>
      cases c with
      | nil => simp [bytesCmp] at h2
      | cons z zs =>
        rcases hxy : compare x y with hc | hc | hc <;> simp [bytesCmp, hxy] at h1 <;>
          rcases hyz : compare y z with hd | hd | hd <;> simp [bytesCmp, hyz] at h2 <;>
          simp [bytesCmp]
        · have hlt := Nat.lt_trans (Nat.compare_eq_lt.mp hxy) (Nat.compare_eq_lt.mp hyz)
          simp [Nat.compare_eq_lt.mpr hlt]
        · rcases Nat.compare_eq_eq.mp hyz with rfl
          simp [hxy]
        · rcases Nat.compare_eq_eq.mp hxy with rfl
          simp [hyz]
        · rcases Nat.compare_eq_eq.mp hxy with rfl
          rcases Nat.compare_eq_eq.mp hyz with rfl
          simp [natCompare_self]
          exact ih h1 h2

/-- Non-strict byte order, the `≤` induced by `bytesCmp`; used as the sort
relation for the object and pack-name sorts. -/
def bytesLe (a b : List Nat) : Prop := bytesCmp a b ≠ .gt

instance : DecidableRel bytesLe := fun a b => by
  unfold bytesLe; infer_instance

theorem bytesLe_total (a b : List Nat) : bytesLe a b ∨ bytesLe b a := by
  unfold bytesLe
  rcases h : bytesCmp a b with h1 | h1 | h1
  · left; simp
  · left; simp
  · right; rw [bytesCmp_swap, h]; simp [Ordering.swap]

theorem bytesLe_trans {a b c : List Nat} (h1 : bytesLe a b) (h2 : bytesLe b c) :
    bytesLe a c := by
  unfold bytesLe at h1 h2 ⊢
  rcases hab : bytesCmp a b with hx | hx | hx
  · rcases hbc : bytesCmp b c with hy | hy | hy
    · simp [bytesCmp_lt_trans hab hbc]
    · rcases bytesCmp_eq_iff.mp hbc with rfl; simp [hab]
    · exact absurd hbc h2
  · rcases bytesCmp_eq_iff.mp hab with rfl
    exact h2
  · exact absurd hab h1

theorem bytesLe_of_lt {a b : List Nat} (h : bytesCmp a b = .lt) : bytesLe a b := by
  unfold bytesLe; simp [h]

theorem bytesCmp_lt_of_le_of_ne {a b : List Nat} (h : bytesLe a b) (hne : a ≠ b) :
    bytesCmp a b = .lt := by
  unfold bytesLe at h
  rcases hc : bytesCmp a b with h1 | h1 | h1
  · rfl
  · exact absurd (bytesCmp_eq_iff.mp hc) hne
  · exact absurd hc h

/-! ## MIDX data model (midx.h) and builder (midx.c) -/

/-- Embedding of `struct pack_midx_entry` (midx.h): an object identifier, the
pre-sort pack id the object lives in, the offset inside that pack, and the
pack mtime that exists only for the deduplicating sort. -/
structure PackMidxEntry where
  oid : List Nat
  pack_int_id : Nat
  offset : Nat
  pack_mtime : Nat
deriving DecidableEq, Repr

def MIDX_SIGNATURE : Nat := 0x4d494458
def MIDX_VERSION : Nat := 0x80000001
def MIDX_CHUNKID_PACKLOOKUP : Nat := 0x504c4f4f
def MIDX_CHUNKID_PACKNAMES : Nat := 0x504e414d
def MIDX_CHUNKID_OIDFANOUT : Nat := 0x4f494446
def MIDX_CHUNKID_OIDLOOKUP : Nat := 0x4f49444c
def MIDX_CHUNKID_OBJECTOFFSETS : Nat := 0x4f4f4646
def MIDX_CHUNKID_LARGEOFFSETS : Nat := 0x4c4f4646
def MIDX_LARGE_OFFSET_NEEDED : Nat := 0x80000000

/-- Order on (pre-sort id, name) pack pairs used by `sort_packs_by_name`:
`pack_pair_compare` is `strcmp` on the names. -/
def packPairLe (a b : Nat × List Nat) : Prop := bytesLe a.2 b.2

instance : DecidableRel packPairLe := fun a b =>
  (inferInstance : Decidable (bytesLe a.2 b.2))

/-- Embedding of `sort_packs_by_name` (midx.c): pair each name with its
pre-sort pack id, sort the pairs by name, write the names back in sorted
order and record the permutation `perm[pre] = post`.  The C sort is `qsort`,
whose order on equal names is unspecified; the embedding uses insertion sort,
which agrees with it whenever names are pairwise distinct (duplicate names
make `write_midx_chunk_packnames` fail later regardless of their order). -/
def sort_packs_by_name (names : List (List Nat)) : List (List Nat) × List Nat :=
  let pairs := (List.range names.length).zip names
  let sorted := List.insertionSort packPairLe pairs
  (sorted.map (·.2),
   (List.range names.length).map (fun pre => sorted.findIdx (fun pr => pr.1 == pre)))

/-- Loop of `write_midx_chunk_packlookup` (midx.c): one cumulative offset per
pack name, starting at 0 and growing by `strlen(name) + 1`. -/
def packlookupGo (cur : Nat) : List (List Nat) → List Nat
  | [] => []
  | n :: ns => cur :: packlookupGo (cur + n.length + 1) ns

/-- Embedding of `write_midx_chunk_packlookup` (midx.c): the Pack-Name Lookup
chunk payload. -/
def write_midx_chunk_packlookup (names : List (List Nat)) : List Nat :=
  packlookupGo 0 names

/-- Embedding of `write_midx_chunk_packnames` (midx.c): emit the names in
order; `BUG` (`none`) when an adjacent pair is not strictly ascending under
`strcmp`. -/
def packnamesGo : Option (List Nat) → List (List Nat) → Option (List (List Nat))
  | _, [] => some []
  | prev, n :: ns =>
    match prev with
    | some p => if bytesCmp n p ≠ .gt then none
                else (n :: ·) <$> packnamesGo (some n) ns
    | none => (n :: ·) <$> packnamesGo (some n) ns

/-- Inner loop of `write_midx_chunk_oidfanout` (midx.c): consume the leading
objects whose first OID byte equals `i`, bumping the running distinct count
whenever the OID differs from the previous one. -/
def fanoutBucket (i : Nat) : List PackMidxEntry → Option (List Nat) → Nat →
    Nat × List PackMidxEntry
  | [], _, cnt => (cnt, [])
  | o :: rest, prev, cnt =>
    if o.oid.getD 0 0 = i then
      let cnt' := match prev with
        | none => cnt + 1
        | some p => if bytesCmp p o.oid ≠ .eq then cnt + 1 else cnt
      fanoutBucket i rest (some o.oid) cnt'
    else (cnt, o :: rest)

/-- Outer loop of `write_midx_chunk_oidfanout`: `k` buckets remain, the
current bucket index is `256 - k`, and the distinct count accumulates across
buckets. -/
def fanoutFrom : Nat → List PackMidxEntry → Nat → List Nat
  | 0, _, _ => []
  | k + 1, objs, cnt =>
    let r := fanoutBucket (256 - (k + 1)) objs none cnt
    r.1 :: fanoutFrom k r.2 r.1

/-- Embedding of `write_midx_chunk_oidfanout` (midx.c lines 908-941): the 256
cumulative distinct-OID counters. -/
def write_midx_chunk_oidfanout (objects : List PackMidxEntry) : List Nat :=
  fanoutFrom 256 objects 0

/-- Embedding of `write_midx_chunk_oidlookup` (midx.c lines 943-974): emit
the OIDs in order, skipping an OID equal to the previous one; `BUG` (`none`)
when an adjacent input pair is not strictly ascending. -/
def oidlookupGo : List PackMidxEntry → Option (List Nat) → Option (List (List Nat))
  | [], _ => some []
  | o :: rest, last =>
    let ordOk : Bool := match rest with
      | [] => true
      | next :: _ => bytesCmp o.oid next.oid = .lt
    if ¬ ordOk then none
    else if last = some o.oid then oidlookupGo rest last
    else (o.oid :: ·) <$> oidlookupGo rest (some o.oid)

/-- Embedding of `write_midx_chunk_objectoffsets` (midx.c lines 976-1008).
Each record is (post-sort pack id, 32-bit offset word).  The C escape word is
`MIDX_LARGE_OFFSET_NEEDED | nr_large_offset`; the counter stays below `2^31`,
so the bitwise or is the addition written here, and the 32-bit truncation
`(uint32_t)obj->offset` is `% 2^32`.  An out-of-range pack id reads past
`pack_perm` in C (undefined behaviour); the embedding rejects it. -/
def objectoffsetsGo (large_offset_needed : Bool) (pack_perm : List Nat) :
    List PackMidxEntry → Option (List Nat) → Nat → Option (List (Nat × Nat))
  | [], _, _ => some []
  | o :: rest, last, nrLarge =>
    if last = some o.oid then
      objectoffsetsGo large_offset_needed pack_perm rest last nrLarge
    else
      match pack_perm.get? o.pack_int_id with
      | none => none
      | some pid =>
        if large_offset_needed ∧ o.offset / 2 ^ 31 ≠ 0 then
          ((pid, MIDX_LARGE_OFFSET_NEEDED + nrLarge) :: ·) <$>
            objectoffsetsGo large_offset_needed pack_perm rest (some o.oid) (nrLarge + 1)
        else if ¬ large_offset_needed ∧ o.offset / 2 ^ 32 ≠ 0 then none
        else
          ((pid, o.offset % 2 ^ 32) :: ·) <$>
            objectoffsetsGo large_offset_needed pack_perm rest (some o.oid) nrLarge

/-- Embedding of `write_midx_chunk_largeoffsets` (midx.c lines 1010-1038):
walk the entries while large offsets remain to be written, emitting the two
32-bit halves of every offset whose bit 31 is set.  The C loop walks past the
end of the array when the pending count exceeds the number of qualifying
entries; the embedding returns `none` there. -/
def largeoffsetsGo : List PackMidxEntry → Option (List Nat) → Nat →
    Option (List (Nat × Nat))
  | _, _, 0 => some []
  | [], _, _ + 1 => none
  | o :: rest, last, nr + 1 =>
    if last = some o.oid then largeoffsetsGo rest last (nr + 1)
    else if o.offset / 2 ^ 31 = 0 then largeoffsetsGo rest (some o.oid) (nr + 1)
    else ((o.offset / 2 ^ 32, o.offset % 2 ^ 32) :: ·) <$>
      largeoffsetsGo rest (some o.oid) nr

/-- The structured content of a MIDX file as `write_midx_file` produces it:
header counters, the chunk table (ids and absolute offsets in emission order,
ending at the sentinel), and every chunk payload. -/
structure MidxFile where
  num_packs : Nat
  num_chunks : Nat
  chunk_ids : List Nat
  chunk_offsets : List Nat
  pack_lookup : List Nat
  pack_names : List (List Nat)
  oid_fanout : List Nat
  oid_lookup : List (List Nat)
  object_offsets : List (Nat × Nat)
  large_offsets : Option (List (Nat × Nat))
deriving DecidableEq, Repr

/-- Embedding of `write_midx_file` (midx.c lines 1072-1263, the version the
spec was written from): `none` where the C returns NULL (`core_midx` unset)
or aborts through `die`/`BUG`, including the per-chunk check that the
declared chunk offset equals the bytes written so far.  The temp-file dance,
fsync and the final rename are I/O externals and are not modelled; the
result is the file's structured content. -/
def write_midx_file (core_midx : Bool) (pack_names : List (List Nat))
    (objects : List PackMidxEntry) : Option MidxFile :=
  if ¬ core_midx then none else
  let nr_large_offset := objects.countP (fun o => decide (0x7fffffff < o.offset))
  let large_offset_needed := objects.any (fun o => decide (0xffffffff < o.offset))
  let sp := sort_packs_by_name pack_names
  let sorted_names := sp.1
  let pack_perm := sp.2
  let nr_packs := pack_names.length
  let nr_objects := objects.length
  let total_name_len := (sorted_names.map (fun n => n.length + 1)).sum
  let num_chunks : Nat := if large_offset_needed then 6 else 5
  let off0 := 16 + 12 * (num_chunks + 1)
  let off1 := off0 + nr_packs * 4
  let off2 := off1 + 1024
  let off3 := off2 + nr_objects * 20
  let off4 := off3 + 8 * nr_objects
  do
  let plook := write_midx_chunk_packlookup sorted_names
  let w1 := off0 + 4 * plook.length
  if off1 ≠ w1 then none else
  let fan := write_midx_chunk_oidfanout objects
  let w2 := w1 + 4 * 256
  if off2 ≠ w2 then none else
  do
  let ol ← oidlookupGo objects none
  let w3 := w2 + 20 * ol.length
  if off3 ≠ w3 then none else
  do
  let oo ← objectoffsetsGo large_offset_needed pack_perm objects none 0
  let w4 := w3 + 8 * oo.length
  if off4 ≠ w4 then none else
  if large_offset_needed then do
    let lo ← largeoffsetsGo objects none nr_large_offset
    let off5 := off4 + 8 * nr_large_offset
    let w5 := w4 + 8 * lo.length
    if off5 ≠ w5 then none else
    do
    let names ← packnamesGo none sorted_names
    let off6 := off5 + total_name_len
    let w6 := w5 + (names.map (fun n => n.length + 1)).sum
    if off6 ≠ w6 then none else
    some { num_packs := nr_packs
           num_chunks := num_chunks
           chunk_ids := [MIDX_CHUNKID_PACKLOOKUP, MIDX_CHUNKID_OIDFANOUT,
                         MIDX_CHUNKID_OIDLOOKUP, MIDX_CHUNKID_OBJECTOFFSETS,
                         MIDX_CHUNKID_LARGEOFFSETS, MIDX_CHUNKID_PACKNAMES, 0]
           chunk_offsets := [off0, off1, off2, off3, off4, off5, off6]
           pack_lookup := plook
           pack_names := names
           oid_fanout := fan
           oid_lookup := ol
           object_offsets := oo
           large_offsets := some lo }
  else do
    let names ← packnamesGo none sorted_names
    let off5 := off4 + total_name_len
    let w5 := w4 + (names.map (fun n => n.length + 1)).sum
    if off5 ≠ w5 then none else
    some { num_packs := nr_packs
           num_chunks := num_chunks
           chunk_ids := [MIDX_CHUNKID_PACKLOOKUP, MIDX_CHUNKID_OIDFANOUT,
                         MIDX_CHUNKID_OIDLOOKUP, MIDX_CHUNKID_OBJECTOFFSETS,
                         MIDX_CHUNKID_PACKNAMES, 0]
           chunk_offsets := [off0, off1, off2, off3, off4, off5]
           pack_lookup := plook
           pack_names := names
           oid_fanout := fan
           oid_lookup := ol
           object_offsets := oo
           large_offsets := none }

/-! ## MIDX reader (midx.c) over the structured file -/

/-- Embedding of the reader state `struct midxed_git` (midx.h) over a
structured file: the fields `load_midxed_git_one` fills from the mapped
chunks; `num_objects` is fanout entry 255. -/
structure MidxedGit where
  num_objects : Nat
  hash_len : Nat
  chunk_oid_fanout : List Nat
  chunk_oid_lookup : List (List Nat)
  chunk_object_offsets : List (Nat × Nat)
  chunk_large_offsets : Option (List (Nat × Nat))
  num_packs : Nat
  pack_names : List (List Nat)
deriving Repr

/-- The reader state obtained from a structured MIDX file, mirroring the
chunk-pointer population of `load_midxed_git_one` (midx.c lines 559-627). -/
def midxFromFile (f : MidxFile) : MidxedGit where
  num_objects := f.oid_fanout.getD 255 0
  hash_len := 20
  chunk_oid_fanout := f.oid_fanout
  chunk_oid_lookup := f.oid_lookup
  chunk_object_offsets := f.object_offsets
  chunk_large_offsets := f.large_offsets
  num_packs := f.num_packs
  pack_names := f.pack_names

/-- Embedding of `nth_midxed_object_details` (midx.c lines 679-703).  The C
tests `d->offset & MIDX_LARGE_OFFSET_NEEDED` on a 32-bit word, which is
`2^31 ≤ word`; clearing the bit (`^ MIDX_LARGE_OFFSET_NEEDED`) is then
`word - 2^31`, and the two 32-bit halves of the large offset recombine as
`hi * 2^32 + lo`. -/
def nth_midxed_object_details (m : MidxedGit) (n : Nat) : Option (Nat × Nat) :=
  if m.num_objects ≤ n then none
  else
    let d := m.chunk_object_offsets.getD n (0, 0)
    match m.chunk_large_offsets with
    | some los =>
      if 2 ^ 31 ≤ d.2 then
        let lo := los.getD (d.2 - 2 ^ 31) (0, 0)
        some (d.1, lo.1 * 2 ^ 32 + lo.2)
      else some d
    | none => some d

/-- Loop of `bsearch_midx` (midx.c lines 746-762).  The candidate count
`last - first` shrinks by at least one per iteration, so it serves as
structural fuel reproducing the C `while` loop exactly. -/
def bsearchGo (lookup : List (List Nat)) (key : List Nat) :
    Nat → Nat → Nat → Bool × Nat
  | 0, first, _ => (false, first)
  | fuel + 1, first, last =>
    if first < last then
      let mid := first + (last - first) / 2
      match bytesCmp key (lookup.getD mid []) with
      | .eq => (true, mid)
      | .gt => bsearchGo lookup key fuel (mid + 1) last
      | .lt => bsearchGo lookup key fuel first mid
    else (false, first)

/-- Embedding of `bsearch_midx` (midx.c lines 738-766): the fanout narrows
the search to the key's first-byte bucket, then binary search; returns
(found, position). -/
def bsearch_midx (m : MidxedGit) (key : List Nat) : Bool × Nat :=
  let b := key.getD 0 0
  let first := if b ≠ 0 then m.chunk_oid_fanout.getD (b - 1) 0 else 0
  let last := m.chunk_oid_fanout.getD b 0
  bsearchGo m.chunk_oid_lookup key (last - first) first last

/-! ## C5: chunk emission order -/

/-- Claim C5 (amended): `write_midx_file` emits the chunk payloads in the
order Pack-Name Lookup, OID Fanout, OID Lookup, Object Offsets, then (when
needed) Large Offsets, and Pack Names last, the chunk table ending with the
sentinel id 0. -/
theorem midx_chunk_emission_order (core : Bool) (names : List (List Nat))
    (objects : List PackMidxEntry) (f : MidxFile)
    (h : write_midx_file core names objects = some f) :
    f.chunk_ids =
      if objects.any (fun o => decide (0xffffffff < o.offset)) then
        [MIDX_CHUNKID_PACKLOOKUP, MIDX_CHUNKID_OIDFANOUT, MIDX_CHUNKID_OIDLOOKUP,
         MIDX_CHUNKID_OBJECTOFFSETS, MIDX_CHUNKID_LARGEOFFSETS,
         MIDX_CHUNKID_PACKNAMES, 0]
      else
        [MIDX_CHUNKID_PACKLOOKUP, MIDX_CHUNKID_OIDFANOUT, MIDX_CHUNKID_OIDLOOKUP,
         MIDX_CHUNKID_OBJECTOFFSETS, MIDX_CHUNKID_PACKNAMES, 0] := by
  unfold write_midx_file at h
  rcases hl : objects.any (fun o => decide (0xffffffff < o.offset)) with _ | _
  · simp only [hl, Bool.false_eq_true, Bool.true_eq_false, if_true, if_false,
      ite_true, ite_false, Option.bind_eq_bind, Option.bind_eq_some,
      Option.ite_none_left_eq_some, Option.some.injEq] at h ⊢
    repeat obtain ⟨_, h⟩ := h
    rfl
  · simp only [hl, Bool.false_eq_true, Bool.true_eq_false, if_true, if_false,
      ite_true, ite_false, Option.bind_eq_bind, Option.bind_eq_some,
      Option.ite_none_left_eq_some, Option.some.injEq] at h ⊢
    repeat obtain ⟨_, h⟩ := h
    rfl

/-- Concrete MIDX file produced by the builder for one pack named "a" and no
objects; used as the shared concrete instance for the chunk-order claim. -/
def exampleMidxFileA : MidxFile where
  num_packs := 1
  num_chunks := 5
  chunk_ids := [MIDX_CHUNKID_PACKLOOKUP, MIDX_CHUNKID_OIDFANOUT,
                MIDX_CHUNKID_OIDLOOKUP, MIDX_CHUNKID_OBJECTOFFSETS,
                MIDX_CHUNKID_PACKNAMES, 0]
  chunk_offsets := [88, 92, 1116, 1116, 1116, 1118]
  pack_lookup := [0]
  pack_names := [[97]]
  oid_fanout := List.replicate 256 0
  oid_lookup := []
  object_offsets := []
  large_offsets := none

set_option maxRecDepth 100000 in
/-- Claim C5 as stated is false: at a concrete input the second chunk
emitted is OID Fanout, not Pack Names — the builder writes Pack Names last,
not second. -/
theorem midx_chunk_emission_order_claim_false :
    write_midx_file true [[97]] [] = some exampleMidxFileA ∧
      exampleMidxFileA.chunk_ids ≠
        [MIDX_CHUNKID_PACKLOOKUP, MIDX_CHUNKID_PACKNAMES, MIDX_CHUNKID_OIDFANOUT,
         MIDX_CHUNKID_OIDLOOKUP, MIDX_CHUNKID_OBJECTOFFSETS, 0] := by
  constructor
  · decide
  · decide

set_option maxRecDepth 100000 in
/-- Witness for `midx_chunk_emission_order` at the concrete one-pack,
no-object input. -/
theorem midx_chunk_emission_order_witness :
    exampleMidxFileA.chunk_ids =
      [MIDX_CHUNKID_PACKLOOKUP, MIDX_CHUNKID_OIDFANOUT, MIDX_CHUNKID_OIDLOOKUP,
       MIDX_CHUNKID_OBJECTOFFSETS, MIDX_CHUNKID_PACKNAMES, 0] := by
  have h := midx_chunk_emission_order true [[97]] [] exampleMidxFileA (by decide)
  simpa using h

/-! ## The builder pipeline: sort and dedup (caller side) -/

/-- Order on object entries induced by `midx_oid_compare` (midx.c lines
24-29): the comparator reads only the OIDs, so this is `bytesCmp` on the
OIDs and nothing else. -/
def entryLe (a b : PackMidxEntry) : Prop := bytesLe a.oid b.oid

instance : DecidableRel entryLe := fun a b =>
  (inferInstance : Decidable (bytesLe a.oid b.oid))

instance : IsTotal PackMidxEntry entryLe := ⟨fun a b => bytesLe_total a.oid b.oid⟩

instance : IsTrans PackMidxEntry entryLe := ⟨fun _ _ _ => bytesLe_trans⟩

/-- Inner loop of the duplicate collapse: drop entries whose OID equals the
last kept entry's OID. -/
def dedupGo (prev : PackMidxEntry) : List PackMidxEntry → List PackMidxEntry
  | [] => []
  | o :: rest =>
    if o.oid = prev.oid then dedupGo prev rest else o :: dedupGo o rest

/-- Collapse adjacent duplicate OIDs, keeping the first entry of each run. -/
def dedupByOid : List PackMidxEntry → List PackMidxEntry
  | [] => []
  | o :: rest => o :: dedupGo o rest

/-- Modelled from the spec: the builder's caller collects the object
entries, sorts them by OID ascending and collapses duplicate OIDs before
handing them to `write_midx_file` (spec section 4.2 steps 2-3; the
collecting caller of this repository is not under src/, only
`midx_oid_compare` is).  Insertion sort keeps equal-OID entries in input
order; the spec's mtime tie-break is deliberately not imposed because the
comparator in src compares only OIDs — see the C4 theorems. -/
def get_sorted_entries (objects : List PackMidxEntry) : List PackMidxEntry :=
  dedupByOid (List.insertionSort entryLe objects)

/-- Modelled from the spec: the complete build pipeline — collect, sort,
dedup, then `write_midx_file`. -/
def build_midx (core_midx : Bool) (pack_names : List (List Nat))
    (objects : List PackMidxEntry) : Option MidxFile :=
  write_midx_file core_midx pack_names (get_sorted_entries objects)

/-- Strict OID ascent between two entries. -/
def entryLt (a b : PackMidxEntry) : Prop := bytesCmp a.oid b.oid = .lt

instance : DecidableRel entryLt := fun a b => by unfold entryLt; infer_instance

theorem entryLt_irrefl_oid {a b : PackMidxEntry} (h : entryLt a b) : a.oid ≠ b.oid := by
  intro hoid
  have h2 : bytesCmp a.oid b.oid = .eq := bytesCmp_eq_iff.mpr hoid
  unfold entryLt at h
  rw [h2] at h
  cases h

theorem dedupGo_props {l : List PackMidxEntry} :
    ∀ {prev : PackMidxEntry}, l.Pairwise entryLe → (∀ o ∈ l, entryLe prev o) →
    (dedupGo prev l).Pairwise entryLt ∧
      (∀ x ∈ dedupGo prev l, bytesCmp prev.oid x.oid = .lt ∧ x ∈ l) ∧
      (∀ o ∈ l, o.oid = prev.oid ∨ ∃ k ∈ dedupGo prev l, k.oid = o.oid) := by
  induction l with
  | nil => intro prev _ _; simp [dedupGo]
  | cons o rest ih =>
    intro prev h hp
    rcases List.pairwise_cons.mp h with ⟨ho, hrest⟩
    by_cases he : o.oid = prev.oid
    · have hp' : ∀ x ∈ rest, entryLe prev x := by
        intro x hx
        have h1 := ho x hx
        unfold entryLe at h1 ⊢
        rw [← he]; exact h1
      rcases ih hrest hp' with ⟨ha, hb, hc⟩
      refine ⟨by simpa [dedupGo, he] using ha, ?_, ?_⟩
      · intro x hx
        rw [dedupGo, if_pos he] at hx
        rcases hb x hx with ⟨h1, h2⟩
        exact ⟨h1, List.mem_cons_of_mem _ h2⟩
      · intro x hx
        rcases List.mem_cons.mp hx with rfl | hx2
        · left; exact he
        · rcases hc x hx2 with h1 | ⟨k, hk1, hk2⟩
          · left; exact h1
          · right; exact ⟨k, by rwa [dedupGo, if_pos he], hk2⟩
    · rcases ih hrest ho with ⟨ha, hb, hc⟩
      have hpo : bytesCmp prev.oid o.oid = .lt := by
        have h1 : bytesLe prev.oid o.oid := hp o (List.mem_cons_self _ _)
        exact bytesCmp_lt_of_le_of_ne h1 (fun hx => he hx.symm)
      rw [dedupGo, if_neg he]
      refine ⟨?_, ?_, ?_⟩
      · refine List.pairwise_cons.mpr ⟨?_, ha⟩
        intro x hx
        exact (hb x hx).1
      · intro x hx
        rcases List.mem_cons.mp hx with rfl | hx2
        · exact ⟨hpo, List.mem_cons_self _ _⟩
        · rcases hb x hx2 with ⟨h1, h2⟩
          exact ⟨bytesCmp_lt_trans hpo h1, List.mem_cons_of_mem _ h2⟩
      · intro x hx
        rcases List.mem_cons.mp hx with rfl | hx2
        · right; exact ⟨x, List.mem_cons_self _ _, rfl⟩
        · rcases hc x hx2 with h1 | ⟨k, hk1, hk2⟩
          · right; exact ⟨o, List.mem_cons_self _ _, h1.symm⟩
          · right; exact ⟨k, List.mem_cons_of_mem _ hk1, hk2⟩

/-- Properties of the duplicate collapse on a sorted list: the result is
strictly ascending by OID, keeps only input entries, and covers every input
OID. -/
theorem dedupByOid_props {l : List PackMidxEntry} (h : l.Pairwise entryLe) :
    (dedupByOid l).Pairwise entryLt ∧
      (∀ x ∈ dedupByOid l, x ∈ l) ∧
      (∀ o ∈ l, ∃ k ∈ dedupByOid l, k.oid = o.oid) := by
  cases l with
  | nil => simp [dedupByOid]
  | cons o rest =>
    rcases List.pairwise_cons.mp h with ⟨ho, hrest⟩
    rcases dedupGo_props hrest ho with ⟨ha, hb, hc⟩
    refine ⟨?_, ?_, ?_⟩
    · exact List.pairwise_cons.mpr ⟨fun x hx => (hb x hx).1, ha⟩
    · intro x hx
      rcases List.mem_cons.mp hx with rfl | hx2
      · exact List.mem_cons_self _ _
      · exact List.mem_cons_of_mem _ (hb x hx2).2
    · intro x hx
      rcases List.mem_cons.mp hx with rfl | hx2
      · exact ⟨x, List.mem_cons_self _ _, rfl⟩
      · rcases hc x hx2 with h1 | ⟨k, hk1, hk2⟩
        · exact ⟨o, List.mem_cons_self _ _, h1.symm⟩
        · exact ⟨k, List.mem_cons_of_mem _ hk1, hk2⟩

/-! ## Behaviour of the chunk writers on strictly sorted input -/

theorem oidlookupGo_eq {l : List PackMidxEntry} (hs : l.Pairwise entryLt) :
    ∀ last, (∀ o ∈ l, last ≠ some o.oid) →
    oidlookupGo l last = some (l.map (·.oid)) := by
  induction l with
  | nil => intro last _; rfl
  | cons o rest ih =>
    intro last hlast
    rcases List.pairwise_cons.mp hs with ⟨ho, hrest⟩
    have hdup : ¬ last = some o.oid := hlast o (List.mem_cons_self _ _)
    have hrec := ih hrest (some o.oid) (by
      intro p hp hx
      exact entryLt_irrefl_oid (ho p hp) (Option.some.injEq _ _ ▸ hx))
    cases rest with
    | nil =>
      rw [oidlookupGo]
      simp [hdup, hrec]
    | cons next tail =>
      have hord : bytesCmp o.oid next.oid = .lt := ho next (List.mem_cons_self _ _)
      rw [oidlookupGo]
      simp only [hord, hdup, hrec, decide_True, not_true, not_false_iff,
        if_false, if_true, ite_false, ite_true, Option.map_eq_map, Option.map_some]
      simp [hrec]

/-- The Object Offsets payload of a duplicate-free entry list: one record per
entry, escape-encoded when bit 31 of the offset is set and large offsets are
in use; `c` is the number of escape indices already handed out. -/
def offsetsSpec (large : Bool) (perm : List Nat) : Nat → List PackMidxEntry → List (Nat × Nat)
  | _, [] => []
  | c, o :: rest =>
    if large ∧ o.offset / 2 ^ 31 ≠ 0 then
      (perm.getD o.pack_int_id 0, MIDX_LARGE_OFFSET_NEEDED + c) ::
        offsetsSpec large perm (c + 1) rest
    else
      (perm.getD o.pack_int_id 0, o.offset % 2 ^ 32) :: offsetsSpec large perm c rest

theorem objectoffsetsGo_eq {large : Bool} {perm : List Nat} {l : List PackMidxEntry}
    (hs : l.Pairwise entryLt)
    (hperm : ∀ o ∈ l, o.pack_int_id < perm.length)
    (hlarge : large = false → ∀ o ∈ l, o.offset < 2 ^ 32) :
    ∀ last c, (∀ o ∈ l, last ≠ some o.oid) →
    objectoffsetsGo large perm l last c = some (offsetsSpec large perm c l) := by
  induction l with
  | nil => intro last c _; rfl
  | cons o rest ih =>
    intro last c hlast
    rcases List.pairwise_cons.mp hs with ⟨ho, hrest⟩
    have hdup : ¬ last = some o.oid := hlast o (List.mem_cons_self _ _)
    have hnext : ∀ p ∈ rest, (some o.oid : Option (List Nat)) ≠ some p.oid := by
      intro p hp hx
      exact entryLt_irrefl_oid (ho p hp) (Option.some.injEq _ _ ▸ hx)
    have hrec := ih hrest (fun p hp => hperm p (List.mem_cons_of_mem _ hp))
      (fun hl p hp => hlarge hl p (List.mem_cons_of_mem _ hp))
    rcases hg : perm.get? o.pack_int_id with _ | pid
    · exact absurd (List.get?_eq_none.mp hg) (by
        simpa using hperm o (List.mem_cons_self _ _))
    · rw [List.get?_eq_getElem?] at hg
      have hpid : perm.getD o.pack_int_id 0 = pid := by
        simp [List.getD_eq_getElem?_getD, hg]
      rw [objectoffsetsGo, offsetsSpec]
      cases large with
      | false =>
        have hoff : o.offset < 4294967296 := by
          have h32 := hlarge rfl o (List.mem_cons_self _ _)
          norm_num at h32
          exact h32
        have hd32 : o.offset / 4294967296 = 0 :=
          (Nat.div_eq_zero_iff (by norm_num)).mpr hoff
        simp [hdup, hg, hd32, hpid, hrec (some o.oid) c hnext]
      | true =>
        by_cases hd : o.offset / 2147483648 = 0
        · simp [hdup, hg, hd, hpid, hrec (some o.oid) c hnext]
        · simp [hdup, hg, hd, hpid, hrec (some o.oid) (c + 1) hnext]

/-- Bit 31 of an object's offset is set; these entries need the large-offset
escape. -/
def hasLargeOffset (o : PackMidxEntry) : Bool := decide (o.offset / 2 ^ 31 ≠ 0)

/-- The Large Offsets payload: the split halves of every offset with bit 31
set, in entry order. -/
def largeSpec (l : List PackMidxEntry) : List (Nat × Nat) :=
  (l.filter hasLargeOffset).map (fun o => (o.offset / 2 ^ 32, o.offset % 2 ^ 32))

theorem hasLargeOffset_true {o : PackMidxEntry} :
    hasLargeOffset o = true ↔ o.offset / 2 ^ 31 ≠ 0 := by
  simp [hasLargeOffset]

theorem hasLargeOffset_false {o : PackMidxEntry} :
    hasLargeOffset o = false ↔ o.offset / 2 ^ 31 = 0 := by
  simp [hasLargeOffset]

theorem largeoffsetsGo_eq {l : List PackMidxEntry} (hs : l.Pairwise entryLt) :
    ∀ last nr, (∀ o ∈ l, last ≠ some o.oid) →
    nr = l.countP hasLargeOffset →
    largeoffsetsGo l last nr = some (largeSpec l) := by
  induction l with
  | nil =>
    intro last nr _ hnr
    simp at hnr
    simp [hnr, largeoffsetsGo, largeSpec]
  | cons o rest ih =>
    intro last nr hlast hnr
    rcases List.pairwise_cons.mp hs with ⟨ho, hrest⟩
    have hdup : ¬ last = some o.oid := hlast o (List.mem_cons_self _ _)
    have hnext : ∀ p ∈ rest, (some o.oid : Option (List Nat)) ≠ some p.oid := by
      intro p hp hx
      exact entryLt_irrefl_oid (ho p hp) (Option.some.injEq _ _ ▸ hx)
    rcases hbig : hasLargeOffset o with _ | _
    · rw [List.countP_cons_of_neg _ _ (by simp [hbig])] at hnr
      have hzero : o.offset / 2 ^ 31 = 0 := hasLargeOffset_false.mp hbig
      have heq : largeSpec (o :: rest) = largeSpec rest := by
        simp [largeSpec, List.filter_cons, hbig]
      rcases hn0 : rest.countP hasLargeOffset with _ | nr2
      · rw [hn0] at hnr
        subst hnr
        rw [heq, largeoffsetsGo]
        have hfil : rest.filter hasLargeOffset = [] := List.countP_eq_zero.mp hn0 |> fun h => by
          rw [List.filter_eq_nil_iff]
          intro a ha
          simp [h a ha]
        simp [largeSpec, hfil]
      · rw [hn0] at hnr
        subst hnr
        have hrec := ih hrest (some o.oid) (nr2 + 1) hnext hn0.symm
        have hz2 : o.offset / 2147483648 = 0 := by simpa using hzero
        rw [largeoffsetsGo, heq]
        simp [hdup, hz2, hrec]
    · rw [List.countP_cons_of_pos _ _ (by simp [hbig])] at hnr
      have hnz : o.offset / 2 ^ 31 ≠ 0 := hasLargeOffset_true.mp hbig
      subst hnr
      have hrec := ih hrest (some o.oid) _ hnext rfl
      have hnz2 : ¬ o.offset / 2147483648 = 0 := by simpa using hnz
      rw [largeoffsetsGo]
      simp [hdup, hnz2, hrec, largeSpec, List.filter_cons, hbig]

/-! ## Fanout correctness on strictly sorted input -/

/-- First byte of an entry's OID, the fanout bucket selector. -/
def fbyte (o : PackMidxEntry) : Nat := o.oid.getD 0 0

theorem bytesCmp_lt_fbyte {a b : List Nat} (h : bytesCmp a b = .lt) :
    a.getD 0 0 ≤ b.getD 0 0 := by
  cases a with
  | nil => simp
  | cons x xs =>
    cases b with
    | nil => simp [bytesCmp] at h
    | cons y ys =>
      rcases hc : compare x y with h1 | h1 | h1 <;> simp [bytesCmp, hc] at h ⊢
      · exact Nat.le_of_lt (Nat.compare_eq_lt.mp hc)
      · exact Nat.le_of_eq (Nat.compare_eq_eq.mp hc)

theorem entryLt_fbyte {a b : PackMidxEntry} (h : entryLt a b) : fbyte a ≤ fbyte b :=
  bytesCmp_lt_fbyte h

theorem fanoutBucket_eq {i : Nat} {l : List PackMidxEntry} (hs : l.Pairwise entryLt) :
    ∀ prev cnt, (∀ o ∈ l, prev ≠ some o.oid) →
    fanoutBucket i l prev cnt =
      (cnt + (l.takeWhile (fun o => decide (fbyte o = i))).length,
       l.dropWhile (fun o => decide (fbyte o = i))) := by
  induction l with
  | nil => intro prev cnt _; simp [fanoutBucket]
  | cons o rest ih =>
    intro prev cnt hprev
    rcases List.pairwise_cons.mp hs with ⟨ho, hrest⟩
    by_cases hb : o.oid.getD 0 0 = i
    · have hnext : ∀ p ∈ rest, (some o.oid : Option (List Nat)) ≠ some p.oid := by
        intro p hp hx
        exact entryLt_irrefl_oid (ho p hp) (Option.some.injEq _ _ ▸ hx)
      have hfb : fbyte o = i := hb
      have hcont : fanoutBucket i rest (some o.oid) (cnt + 1) =
          (cnt + ((o :: rest).takeWhile (fun o => decide (fbyte o = i))).length,
           (o :: rest).dropWhile (fun o => decide (fbyte o = i))) := by
        rw [ih hrest (some o.oid) (cnt + 1) hnext]
        simp [List.takeWhile_cons, List.dropWhile_cons, hfb]
        omega
      cases prev with
      | none =>
        have hstep : fanoutBucket i (o :: rest) none cnt =
            fanoutBucket i rest (some o.oid) (cnt + 1) := by
          rw [fanoutBucket.eq_def]
          simp only [if_pos hb]
        rw [hstep, hcont]
      | some p =>
        have hne : bytesCmp p o.oid ≠ .eq := by
          intro hx
          exact hprev o (List.mem_cons_self _ _) (by rw [bytesCmp_eq_iff.mp hx])
        have hstep : fanoutBucket i (o :: rest) (some p) cnt =
            fanoutBucket i rest (some o.oid) (cnt + 1) := by
          rw [fanoutBucket.eq_def]
          simp only [if_pos hb, hne, if_true, ite_true, ne_eq, not_false_iff]
        rw [hstep, hcont]
    · have hfb : ¬ fbyte o = i := hb
      have hstep : fanoutBucket i (o :: rest) prev cnt = (cnt, o :: rest) := by
        rw [fanoutBucket.eq_def]
        simp only [if_neg hb]
      rw [hstep]
      simp [List.takeWhile_cons, List.dropWhile_cons, hfb]

theorem dropWhile_fbyte_gt {i : Nat} {l : List PackMidxEntry}
    (hs : l.Pairwise entryLt) (hge : ∀ o ∈ l, i ≤ fbyte o) :
    ∀ o ∈ l.dropWhile (fun o => decide (fbyte o = i)), i + 1 ≤ fbyte o := by
  induction l with
  | nil => simp
  | cons o rest ih =>
    rcases List.pairwise_cons.mp hs with ⟨ho, hrest⟩
    by_cases hb : fbyte o = i
    · rw [List.dropWhile_cons]
      simp only [hb, decide_True, if_true, ite_true]
      exact ih hrest (fun x hx => hge x (List.mem_cons_of_mem _ hx))
    · rw [List.dropWhile_cons]
      simp only [hb, decide_False, if_false, ite_false]
      intro x hx
      rcases List.mem_cons.mp hx with rfl | hx2
      · have := hge x (List.mem_cons_self _ _)
        omega
      · have h1 : fbyte o ≤ fbyte x := entryLt_fbyte (ho x hx2)
        have h2 := hge o (List.mem_cons_self _ _)
        omega

theorem fanoutFrom_eq :
    ∀ k, k ≤ 256 → ∀ (l : List PackMidxEntry) cnt, l.Pairwise entryLt →
    (∀ o ∈ l, 256 - k ≤ fbyte o ∧ fbyte o < 256) →
    fanoutFrom k l cnt =
      (List.range k).map
        (fun j => cnt + l.countP (fun o => decide (fbyte o ≤ 256 - k + j))) := by
  intro k
  induction k with
  | zero => intro _ l cnt _ _; simp [fanoutFrom]
  | succ k ih =>
    intro hk l cnt hs hb
    have hprev : ∀ o ∈ l, (none : Option (List Nat)) ≠ some o.oid := by
      intro o _ hx; cases hx
    have hbu := fanoutBucket_eq (i := 256 - (k + 1)) hs none cnt hprev
    rw [fanoutFrom, hbu]
    set i := 256 - (k + 1) with hi
    set run := l.takeWhile (fun o => decide (fbyte o = i)) with hrun
    set rest := l.dropWhile (fun o => decide (fbyte o = i)) with hrest2
    have hsplit : run ++ rest = l := by
      rw [hrun, hrest2]
      exact List.takeWhile_append_dropWhile (fun o => decide (fbyte o = i)) l
    have hrunP : ∀ o ∈ run, fbyte o = i := by
      intro o hoo
      have := List.mem_takeWhile_imp (p := fun o => decide (fbyte o = i)) hoo
      simpa using this
    have hrestSub : rest.Sublist l := by
      rw [hrest2]; exact List.dropWhile_sublist _
    have hrestP : ∀ o ∈ rest, i + 1 ≤ fbyte o ∧ fbyte o < 256 := by
      intro o hoo
      refine ⟨dropWhile_fbyte_gt hs (fun x hx => (hb x hx).1) o hoo, ?_⟩
      exact (hb o (hrestSub.mem hoo)).2
    have hrecur := ih (by omega) rest (cnt + run.length)
      (hs.sublist hrestSub)
      (by
        intro o hoo
        have h1 := hrestP o hoo
        omega)
    have hrestNot : ∀ j, i ≤ j →
        rest.countP (fun o => decide (fbyte o ≤ j)) =
          rest.countP (fun o => decide (fbyte o ≤ j)) := fun _ _ => rfl
    rw [hrecur, List.range_succ_eq_map, List.map_cons, List.map_map,
      List.cons.injEq]
    have hrun_all : ∀ j, i ≤ j →
        run.countP (fun o => decide (fbyte o ≤ j)) = run.length := by
      intro j hj
      apply List.countP_eq_length.mpr
      intro o hoo
      have := hrunP o hoo
      simp
      omega
    refine ⟨?_, ?_⟩
    · have hz : rest.countP (fun o => decide (fbyte o ≤ i + 0)) = 0 := by
        apply List.countP_eq_zero.mpr
        intro o hoo
        have := (hrestP o hoo).1
        simp
        omega
      rw [← hsplit, List.countP_append, hz, hrun_all (i + 0) (by omega)]
      simp
    · apply List.map_congr_left
      intro j _
      have harith : i + (j + 1) = 256 - k + j := by omega
      have harith2 : i + Nat.succ j = 256 - k + j := by omega
      simp only [Function.comp, harith, harith2]
      rw [← hsplit, List.countP_append, hrun_all (256 - k + j) (by omega)]
      omega

/-- Fanout payload of a strictly sorted entry list with in-range first
bytes: entry `j` counts the entries whose first OID byte is at most `j`. -/
theorem write_midx_chunk_oidfanout_eq {l : List PackMidxEntry}
    (hs : l.Pairwise entryLt) (hfb : ∀ o ∈ l, fbyte o < 256) :
    write_midx_chunk_oidfanout l =
      (List.range 256).map (fun j => l.countP (fun o => decide (fbyte o ≤ j))) := by
  unfold write_midx_chunk_oidfanout
  rw [fanoutFrom_eq 256 (le_refl _) l 0 hs
    (fun o ho => ⟨Nat.le_of_eq (by omega) |>.trans (Nat.zero_le _), hfb o ho⟩)]
  apply List.map_congr_left
  intro j _
  norm_num

theorem packnamesGo_eq {l : List (List Nat)}
    (hs : l.Pairwise (fun a b => bytesCmp a b = .lt)) :
    ∀ prev, (∀ x ∈ l, prev = none ∨ ∃ p, prev = some p ∧ bytesCmp p x = .lt) →
    packnamesGo prev l = some l := by
  induction l with
  | nil => intro prev _; cases prev <;> rfl
  | cons n ns ih =>
    intro prev hprev
    rcases List.pairwise_cons.mp hs with ⟨hn, hns⟩
    have hrec := ih hns (some n) (by
      intro x hx
      exact Or.inr ⟨n, rfl, hn x hx⟩)
    cases prev with
    | none => simp [packnamesGo, hrec]
    | some p =>
      rcases hprev n (List.mem_cons_self _ _) with h1 | ⟨p2, hp2, hlt⟩
      · cases h1
      · rcases Option.some.injEq _ _ ▸ hp2 with rfl
        have hgt : bytesCmp n p = .gt := by
          rw [bytesCmp_swap, hlt]
          rfl
        simp [packnamesGo, hgt, hrec]

theorem packlookupGo_length (ns : List (List Nat)) : ∀ c, (packlookupGo c ns).length = ns.length := by
  induction ns with
  | nil => intro c; rfl
  | cons n ns ih => intro c; simp [packlookupGo, ih]

theorem offsetsSpec_length (large : Bool) (perm : List Nat) :
    ∀ l c, (offsetsSpec large perm c l).length = l.length := by
  intro l
  induction l with
  | nil => intro c; rfl
  | cons o rest ih =>
    intro c
    rw [offsetsSpec]
    split
    · simp [ih]
    · simp [ih]

theorem largeSpec_length (l : List PackMidxEntry) :
    (largeSpec l).length = l.countP hasLargeOffset := by
  simp [largeSpec, List.countP_eq_length_filter]

instance : IsTotal (Nat × List Nat) packPairLe :=
  ⟨fun a b => bytesLe_total a.2 b.2⟩

instance : IsTrans (Nat × List Nat) packPairLe :=
  ⟨fun _ _ _ => bytesLe_trans⟩

theorem sort_packs_fst_length (names : List (List Nat)) :
    (sort_packs_by_name names).1.length = names.length := by
  simp [sort_packs_by_name, List.length_insertionSort]

theorem sort_packs_snd_length (names : List (List Nat)) :
    (sort_packs_by_name names).2.length = names.length := by
  simp [sort_packs_by_name]

theorem sort_packs_fst_perm (names : List (List Nat)) :
    (sort_packs_by_name names).1.Perm names := by
  unfold sort_packs_by_name
  have h1 : (List.insertionSort packPairLe ((List.range names.length).zip names)).Perm
      ((List.range names.length).zip names) := List.perm_insertionSort _ _
  have h2 := h1.map (·.2)
  simpa [List.map_snd_zip, List.length_range] using h2

theorem sort_packs_fst_sorted {names : List (List Nat)} (h : names.Nodup) :
    (sort_packs_by_name names).1.Pairwise (fun a b => bytesCmp a b = .lt) := by
  have hsorted : ((sort_packs_by_name names).1).Pairwise bytesLe := by
    unfold sort_packs_by_name
    have := List.sorted_insertionSort packPairLe ((List.range names.length).zip names)
    exact List.Pairwise.map _ (fun a b hab => hab) this
  have hnodup : ((sort_packs_by_name names).1).Nodup :=
    (sort_packs_fst_perm names).nodup_iff.mpr h
  have hcomb := hsorted.and hnodup
  exact hcomb.imp (fun hab => bytesCmp_lt_of_le_of_ne hab.1 hab.2)


/-- Success of `write_midx_file` on pairwise-distinct pack names and a
strictly ascending entry list: no `die`/`BUG` path triggers and every chunk
payload is the reference one. -/
theorem write_midx_file_success
    {names : List (List Nat)} {objects : List PackMidxEntry}
    (hnames : names.Nodup)
    (hs : objects.Pairwise entryLt)
    (hperm : ∀ o ∈ objects, o.pack_int_id < names.length) :
    ∃ f, write_midx_file true names objects = some f ∧
      f.oid_lookup = objects.map (·.oid) ∧
      f.oid_fanout = write_midx_chunk_oidfanout objects ∧
      f.object_offsets =
        offsetsSpec (objects.any (fun o => decide (0xffffffff < o.offset)))
          (sort_packs_by_name names).2 0 objects ∧
      f.large_offsets =
        (if objects.any (fun o => decide (0xffffffff < o.offset)) then
          some (largeSpec objects) else none) ∧
      f.pack_names = (sort_packs_by_name names).1 ∧
      f.num_packs = names.length := by
  have hnone : ∀ o ∈ objects, (none : Option (List Nat)) ≠ some o.oid := by
    intro o _ hx; cases hx
  have hol := oidlookupGo_eq hs none hnone
  have hperm2 : ∀ o ∈ objects, o.pack_int_id < (sort_packs_by_name names).2.length := by
    intro o ho
    rw [sort_packs_snd_length]
    exact hperm o ho
  have hlargeImp : objects.any (fun o => decide (0xffffffff < o.offset)) = false →
      ∀ o ∈ objects, o.offset < 2 ^ 32 := by
    intro hfalse o ho
    have := List.any_eq_false.mp hfalse o ho
    simp at this
    omega
  have hoo := objectoffsetsGo_eq hs hperm2 hlargeImp none 0 hnone
  have hnm := packnamesGo_eq (sort_packs_fst_sorted hnames) none
    (fun x _ => Or.inl rfl)
  have hcnt : objects.countP (fun o => decide (0x7fffffff < o.offset)) =
      objects.countP hasLargeOffset := by
    apply List.countP_congr
    intro o _
    have h31 : (2 : Nat) ^ 31 = 2147483648 := by norm_num
    constructor
    · intro h1
      simp at h1
      simp [hasLargeOffset, h31]
      have : ¬ o.offset < 2147483648 := by omega
      intro hx
      exact this ((Nat.div_eq_zero_iff (by norm_num)).mp hx)
    · intro h1
      simp [hasLargeOffset, h31] at h1
      simp
      have : ¬ o.offset < 2147483648 := by
        intro hx
        exact h1 ((Nat.div_eq_zero_iff (by norm_num)).mpr hx)
      omega
  have hlo := largeoffsetsGo_eq hs none (objects.countP hasLargeOffset) hnone rfl
  have hplen : (write_midx_chunk_packlookup (sort_packs_by_name names).1).length =
      names.length := by
    unfold write_midx_chunk_packlookup
    rw [packlookupGo_length, sort_packs_fst_length]
  unfold write_midx_file
  rcases hL : objects.any (fun o => decide (0xffffffff < o.offset)) with _ | _ <;>
    simp only [hL, Bool.false_eq_true, Bool.true_eq_false, if_true, if_false,
      ite_true, ite_false, not_true, not_false_iff, Option.bind_eq_bind] at hoo ⊢
  · rw [hol, hoo, hnm]
    simp only [Option.some_bind, offsetsSpec_length, List.length_map, hplen, hcnt]
    rw [if_neg (by omega), if_neg (by omega), if_neg (by omega), if_neg (by omega),
      if_neg (by omega)]
    exact ⟨_, rfl, rfl, rfl, rfl, rfl, rfl, rfl⟩
  · rw [hol, hoo, hnm, hcnt, hlo]
    simp only [Option.some_bind, offsetsSpec_length, List.length_map, hplen, hcnt,
      largeSpec_length]
    rw [if_neg (by omega), if_neg (by omega), if_neg (by omega), if_neg (by omega),
      if_neg (by omega), if_neg (by omega)]
    exact ⟨_, rfl, rfl, rfl, rfl, rfl, rfl, rfl⟩


/-! ## Properties of the sorted-dedup pipeline -/

theorem get_sorted_entries_sorted (objects : List PackMidxEntry) :
    (get_sorted_entries objects).Pairwise entryLt := by
  unfold get_sorted_entries
  have hsorted : (List.insertionSort entryLe objects).Pairwise entryLe :=
    List.sorted_insertionSort entryLe objects
  exact (dedupByOid_props hsorted).1

theorem get_sorted_entries_mem {objects : List PackMidxEntry} :
    ∀ x ∈ get_sorted_entries objects, x ∈ objects := by
  intro x hx
  unfold get_sorted_entries at hx
  have hsorted : (List.insertionSort entryLe objects).Pairwise entryLe :=
    List.sorted_insertionSort entryLe objects
  have h2 := (dedupByOid_props hsorted).2.1 x hx
  exact (List.perm_insertionSort entryLe objects).mem_iff.mp h2

theorem get_sorted_entries_cover {objects : List PackMidxEntry} :
    ∀ o ∈ objects, ∃ k ∈ get_sorted_entries objects, k.oid = o.oid := by
  intro o ho
  unfold get_sorted_entries
  have hsorted : (List.insertionSort entryLe objects).Pairwise entryLe :=
    List.sorted_insertionSort entryLe objects
  exact (dedupByOid_props hsorted).2.2 o
    ((List.perm_insertionSort entryLe objects).mem_iff.mpr ho)

theorem get_sorted_entries_oids_nodup (objects : List PackMidxEntry) :
    ((get_sorted_entries objects).map (·.oid)).Nodup := by
  have hlt := get_sorted_entries_sorted objects
  exact List.Pairwise.map _ (fun a b hab => entryLt_irrefl_oid hab) hlt

theorem gse_oids_perm_dedup (objects : List PackMidxEntry) :
    ((get_sorted_entries objects).map (·.oid)).Perm ((objects.map (·.oid)).dedup) := by
  apply (List.perm_ext_iff_of_nodup (get_sorted_entries_oids_nodup objects)
    (List.nodup_dedup _)).mpr
  intro x
  simp only [List.mem_dedup, List.mem_map]
  constructor
  · rintro ⟨k, hk, rfl⟩
    exact ⟨k, get_sorted_entries_mem k hk, rfl⟩
  · rintro ⟨o, ho, rfl⟩
    rcases get_sorted_entries_cover o ho with ⟨k, hk, hoid⟩
    exact ⟨k, hk, hoid⟩

theorem packnamesGo_self {l : List (List Nat)} :
    ∀ prev m, packnamesGo prev l = some m → m = l := by
  induction l with
  | nil =>
    intro prev m h
    cases prev <;> simpa [packnamesGo] using h.symm
  | cons n ns ih =>
    intro prev m h
    cases prev with
    | none =>
      simp only [packnamesGo, Option.map_eq_map, Option.map_eq_some'] at h
      rcases h with ⟨m2, hm2, rfl⟩
      rw [ih (some n) m2 hm2]
    | some p =>
      simp only [packnamesGo] at h
      split at h
      · cases h
      · simp only [Option.map_eq_map, Option.map_eq_some'] at h
        rcases h with ⟨m2, hm2, rfl⟩
        rw [ih (some n) m2 hm2]

/-- Unconditional extraction of the payload fields from any successful
`write_midx_file` run. -/
theorem write_midx_file_fields {core : Bool} {names : List (List Nat)}
    {objects : List PackMidxEntry} {f : MidxFile}
    (h : write_midx_file core names objects = some f) :
    f.oid_fanout = write_midx_chunk_oidfanout objects ∧
    (∃ ol, oidlookupGo objects none = some ol ∧ f.oid_lookup = ol) ∧
    (∃ oo, objectoffsetsGo (objects.any (fun o => decide (0xffffffff < o.offset)))
        (sort_packs_by_name names).2 objects none 0 = some oo ∧
        f.object_offsets = oo) ∧
    (if objects.any (fun o => decide (0xffffffff < o.offset)) then
      ∃ lo, largeoffsetsGo objects none
          (objects.countP (fun o => decide (0x7fffffff < o.offset))) = some lo ∧
        f.large_offsets = some lo
     else f.large_offsets = none) ∧
    f.pack_names = (sort_packs_by_name names).1 ∧
    f.num_packs = names.length := by
  unfold write_midx_file at h
  rcases hL : objects.any (fun o => decide (0xffffffff < o.offset)) with _ | _ <;>
    rw [hL] at h <;>
    simp only [Bool.false_eq_true, Bool.true_eq_false, if_true, if_false,
      ite_true, ite_false, Option.bind_eq_bind, Option.bind_eq_some,
      Option.ite_none_left_eq_some, Option.some.injEq] at h <;>
    simp only [hL, Bool.false_eq_true, Bool.true_eq_false, if_true, if_false,
      ite_true, ite_false]
  · obtain ⟨hc, h1, h2, ol, holv, h3, oo, hoov, h4, nm, hnmv, h5, hf⟩ := h
    subst hf
    refine ⟨rfl, ⟨ol, holv, rfl⟩, ⟨oo, hoov, rfl⟩, rfl, ?_, rfl⟩
    exact packnamesGo_self _ _ hnmv
  · obtain ⟨hc, h1, h2, ol, holv, h3, oo, hoov, h4, lo, hlov, h5, nm, hnmv, h6, hf⟩ := h
    subst hf
    refine ⟨rfl, ⟨ol, holv, rfl⟩, ⟨oo, hoov, rfl⟩, ⟨lo, hlov, rfl⟩, ?_, rfl⟩
    exact packnamesGo_self _ _ hnmv


theorem range_map_getD (g : Nat → Nat) {n i : Nat} (h : i < n) :
    ((List.range n).map g).getD i 0 = g i := by
  rw [List.getD_eq_getElem?_getD, List.getElem?_map, List.getElem?_range h]
  rfl

/-! ## C7: fanout counts distinct input OIDs -/

/-- Claim C7: in every MIDX the builder produces, OID Fanout entry `i`
equals the number of distinct input OIDs whose first byte is at most `i`,
and entry 255 is the total distinct-OID count. -/
theorem midx_fanout_distinct_counts
    (names : List (List Nat)) (objects : List PackMidxEntry) (f : MidxFile)
    (hfb : ∀ o ∈ objects, o.oid.getD 0 0 < 256)
    (h : build_midx true names objects = some f) :
    (∀ i, i < 256 → f.oid_fanout.getD i 0 =
      (objects.map (·.oid)).dedup.countP (fun x => decide (x.getD 0 0 ≤ i))) ∧
    f.oid_fanout.getD 255 0 = (objects.map (·.oid)).dedup.length := by
  unfold build_midx at h
  have hfan := (write_midx_file_fields h).1
  have hsorted := get_sorted_entries_sorted objects
  have hfb2 : ∀ o ∈ get_sorted_entries objects, fbyte o < 256 := by
    intro o ho
    exact hfb o (get_sorted_entries_mem o ho)
  rw [write_midx_chunk_oidfanout_eq hsorted hfb2] at hfan
  have hcount : ∀ i : Nat,
      (get_sorted_entries objects).countP (fun o => decide (fbyte o ≤ i)) =
        (objects.map (·.oid)).dedup.countP (fun x => decide (x.getD 0 0 ≤ i)) := by
    intro i
    have h1 : ((get_sorted_entries objects).map (·.oid)).countP
        (fun x => decide (x.getD 0 0 ≤ i)) =
        (get_sorted_entries objects).countP (fun o => decide (fbyte o ≤ i)) := by
      rw [List.countP_map]
      rfl
    rw [← h1]
    exact (gse_oids_perm_dedup objects).countP_eq _
  constructor
  · intro i hi
    rw [hfan, range_map_getD _ hi, hcount i]
  · rw [hfan, range_map_getD _ (by norm_num), hcount 255]
    apply List.countP_eq_length.mpr
    intro x hx
    rcases List.mem_map.mp (List.mem_dedup.mp hx) with ⟨o, ho, rfl⟩
    have h2 := hfb o ho
    rw [List.getD_eq_getElem?_getD] at h2
    simp
    omega


/-- Concrete entry with first OID byte 170, pre-sort pack 0, offset 200. -/
def entryA170 : PackMidxEntry := ⟨170 :: List.replicate 19 0, 0, 200, 0⟩

/-- Concrete entry with first OID byte 5, pre-sort pack 1, offset 100. -/
def entryA5 : PackMidxEntry := ⟨List.replicate 20 5, 1, 100, 0⟩

/-- Concrete builder input: unsorted, with one duplicated entry. -/
def exampleObjectsB : List PackMidxEntry := [entryA170, entryA5, entryA170]

/-- Concrete pack names, deliberately in reverse-sorted order. -/
def examplePacksB : List (List Nat) := [[98], [97]]

/-- The MIDX the builder produces for `examplePacksB`/`exampleObjectsB`. -/
def exampleMidxFileB : MidxFile where
  num_packs := 2
  num_chunks := 5
  chunk_ids := [MIDX_CHUNKID_PACKLOOKUP, MIDX_CHUNKID_OIDFANOUT,
                MIDX_CHUNKID_OIDLOOKUP, MIDX_CHUNKID_OBJECTOFFSETS,
                MIDX_CHUNKID_PACKNAMES, 0]
  chunk_offsets := [88, 96, 1120, 1160, 1176, 1180]
  pack_lookup := [0, 2]
  pack_names := [[97], [98]]
  oid_fanout := List.replicate 5 0 ++ List.replicate 165 1 ++ List.replicate 86 2
  oid_lookup := [List.replicate 20 5, 170 :: List.replicate 19 0]
  object_offsets := [(0, 100), (1, 200)]
  large_offsets := none

set_option maxRecDepth 400000 in
theorem exampleMidxFileB_eq :
    build_midx true examplePacksB exampleObjectsB = some exampleMidxFileB := by
  decide

set_option maxRecDepth 400000 in
/-- Witness for `midx_fanout_distinct_counts` at the concrete two-pack,
three-entry (one duplicate) input. -/
theorem midx_fanout_distinct_counts_witness :
    (∀ i, i < 256 → exampleMidxFileB.oid_fanout.getD i 0 =
      (exampleObjectsB.map (·.oid)).dedup.countP (fun x => decide (x.getD 0 0 ≤ i))) ∧
    exampleMidxFileB.oid_fanout.getD 255 0 =
      (exampleObjectsB.map (·.oid)).dedup.length :=
  midx_fanout_distinct_counts examplePacksB exampleObjectsB exampleMidxFileB
    (by decide) exampleMidxFileB_eq


/-! ## Decoding object-offset records -/

theorem offsetsSpec_getD {large : Bool} {perm : List Nat} :
    ∀ (l : List PackMidxEntry) (k : Nat) (c : Nat) (o : PackMidxEntry),
    l.get? k = some o →
    (offsetsSpec large perm c l).getD k (0, 0) =
      (if large = true ∧ o.offset / 2 ^ 31 ≠ 0 then
        (perm.getD o.pack_int_id 0,
         MIDX_LARGE_OFFSET_NEEDED + (c + (l.take k).countP hasLargeOffset))
      else (perm.getD o.pack_int_id 0, o.offset % 2 ^ 32)) := by
  intro l
  induction l with
  | nil => intro k c o h; cases h
  | cons hd rest ih =>
    intro k c o h
    cases k with
    | zero =>
      rw [List.get?_cons_zero] at h
      injection h with h2
      subst h2
      rw [offsetsSpec]
      by_cases hb : large = true ∧ hd.offset / 2 ^ 31 ≠ 0
      · rw [if_pos hb, if_pos hb, List.getD_cons_zero]
        simp
      · rw [if_neg hb, if_neg hb, List.getD_cons_zero]
    | succ k =>
      rw [List.get?_cons_succ] at h
      rw [offsetsSpec]
      by_cases hb : large = true ∧ hd.offset / 2 ^ 31 ≠ 0
      · have hhd : hasLargeOffset hd = true := hasLargeOffset_true.mpr hb.2
        rw [if_pos hb, List.getD_cons_succ, ih k (c + 1) o h]
        by_cases hbo : large = true ∧ o.offset / 2 ^ 31 ≠ 0
        · rw [if_pos hbo, if_pos hbo]
          rw [List.take_succ_cons, List.countP_cons_of_pos _ _ hhd]
          rw [Prod.mk.injEq]
          exact ⟨rfl, by omega⟩
        · rw [if_neg hbo, if_neg hbo]
      · rw [if_neg hb, List.getD_cons_succ, ih k c o h]
        rcases hlv : large with _ | _
        · subst hlv
          rw [if_neg (by simp), if_neg (by simp)]
        · subst hlv
          have hz : hd.offset / 2 ^ 31 = 0 := by
            by_contra hx
            exact hb ⟨rfl, hx⟩
          have hhdf : hasLargeOffset hd = false := hasLargeOffset_false.mpr hz
          rw [List.take_succ_cons, List.countP_cons_of_neg _ _ (by simp [hhdf])]

theorem largeSpec_getD :
    ∀ (l : List PackMidxEntry) (k : Nat) (o : PackMidxEntry),
    l.get? k = some o → hasLargeOffset o = true →
    (largeSpec l).getD ((l.take k).countP hasLargeOffset) (0, 0) =
      (o.offset / 2 ^ 32, o.offset % 2 ^ 32) := by
  intro l
  induction l with
  | nil => intro k o h; cases h
  | cons hd rest ih =>
    intro k o h hbig
    cases k with
    | zero =>
      rw [List.get?_cons_zero] at h
      injection h with h2
      subst h2
      have hcons : largeSpec (hd :: rest) =
          (hd.offset / 2 ^ 32, hd.offset % 2 ^ 32) :: largeSpec rest := by
        unfold largeSpec
        rw [List.filter_cons, if_pos (by simp [hbig])]
        rfl
      rw [hcons]
      simp
    | succ k =>
      rw [List.get?_cons_succ] at h
      rcases hhd : hasLargeOffset hd with _ | _
      · have hcons : largeSpec (hd :: rest) = largeSpec rest := by
          unfold largeSpec
          rw [List.filter_cons, if_neg (by simp [hhd])]
        rw [hcons, List.take_succ_cons, List.countP_cons_of_neg _ _ (by simp [hhd])]
        exact ih k o h hbig
      · have hcons : largeSpec (hd :: rest) =
            (hd.offset / 2 ^ 32, hd.offset % 2 ^ 32) :: largeSpec rest := by
          unfold largeSpec
          rw [List.filter_cons, if_pos (by simp [hhd])]
          rfl
        rw [hcons, List.take_succ_cons, List.countP_cons_of_pos _ _ hhd,
          List.getD_cons_succ]
        exact ih k o h hbig

/-- The reader-visible object count equals the entry count: fanout entry 255
counts every entry when all first bytes are in range. -/
theorem midxFromFile_num_objects
    {l : List PackMidxEntry} {f : MidxFile}
    (hs : l.Pairwise entryLt) (hfb : ∀ o ∈ l, fbyte o < 256)
    (hfan : f.oid_fanout = write_midx_chunk_oidfanout l) :
    (midxFromFile f).num_objects = l.length := by
  show f.oid_fanout.getD 255 0 = l.length
  rw [hfan, write_midx_chunk_oidfanout_eq hs hfb, range_map_getD _ (by norm_num)]
  apply List.countP_eq_length.mpr
  intro o ho
  have := hfb o ho
  simp
  omega

/-- Master decode correctness: in a MIDX written from a strictly sorted
entry list, entry `k` of the Object Offsets chunk decodes (through the
large-offset escape when applicable) to the entry's remapped pack id and its
exact original offset. -/
theorem nth_midxed_details_correct
    {names : List (List Nat)} {l : List PackMidxEntry} {f : MidxFile}
    (hnames : names.Nodup)
    (hs : l.Pairwise entryLt)
    (hperm : ∀ o ∈ l, o.pack_int_id < names.length)
    (hfb : ∀ o ∈ l, fbyte o < 256)
    (hw : write_midx_file true names l = some f) :
    ∀ k o, l.get? k = some o →
      nth_midxed_object_details (midxFromFile f) k =
        some ((sort_packs_by_name names).2.getD o.pack_int_id 0, o.offset) := by
  obtain ⟨f2, hw2, holv, hfanv, hoov, hlov, hpnv, hnpv⟩ :=
    write_midx_file_success hnames hs hperm
  rw [hw] at hw2
  injection hw2 with hff
  subst hff
  intro k o hk
  have hklen : k < l.length := List.get?_eq_some.mp hk |>.1
  have hnum : (midxFromFile f).num_objects = l.length :=
    midxFromFile_num_objects hs hfb hfanv
  have hM : MIDX_LARGE_OFFSET_NEEDED = 2 ^ 31 := by norm_num [MIDX_LARGE_OFFSET_NEEDED]
  unfold nth_midxed_object_details
  rw [if_neg (by omega)]
  rw [show (midxFromFile f).chunk_object_offsets = f.object_offsets from rfl,
      show (midxFromFile f).chunk_large_offsets = f.large_offsets from rfl,
      hlov, hoov]
  rcases hL : l.any (fun o => decide (0xffffffff < o.offset)) with _ | _ <;>
    simp only [hL, Bool.false_eq_true, Bool.true_eq_false, if_false, if_true,
      ite_false, ite_true]
  · have hsmall : o.offset < 2 ^ 32 := by
      have := List.any_eq_false.mp hL o (List.get?_mem hk)
      simp at this
      omega
    have hd := @offsetsSpec_getD false (sort_packs_by_name names).2 l k 0 o hk
    rw [if_neg (by simp)] at hd
    simp only [hd]
    rw [Nat.mod_eq_of_lt hsmall]
  · have hd := @offsetsSpec_getD true (sort_packs_by_name names).2 l k 0 o hk
    by_cases hbig0 : o.offset / 2 ^ 31 = 0
    · have hb2 : o.offset / 2147483648 = 0 := by simpa using hbig0
      rw [if_neg (by simp [hb2])] at hd
      have hsmall : o.offset < 2 ^ 31 :=
        (Nat.div_eq_zero_iff (by norm_num : (0:Nat) < 2 ^ 31)).mp hbig0
      simp only [hd]
      rw [if_neg (by
        rw [Nat.mod_eq_of_lt (by omega)]
        omega)]
      rw [Nat.mod_eq_of_lt (by omega)]
    · rw [if_pos ⟨rfl, hbig0⟩] at hd
      have hbigT : hasLargeOffset o = true := hasLargeOffset_true.mpr hbig0
      have hlarge := largeSpec_getD l k o hk hbigT
      simp only [hd]
      rw [if_pos (by simp [hM])]
      have hidx : MIDX_LARGE_OFFSET_NEEDED + (0 + (l.take k).countP hasLargeOffset)
          - 2 ^ 31 = (l.take k).countP hasLargeOffset := by
        rw [hM]
        omega
      simp only [hidx, hlarge]
      rw [Option.some.injEq, Prod.mk.injEq]
      refine ⟨rfl, ?_⟩
      exact Nat.div_add_mod' o.offset (2 ^ 32)




/-! ## C6: the large-offset escape -/

theorem countP_take_lt {l : List PackMidxEntry} {k : Nat} {o : PackMidxEntry}
    (hk : l.get? k = some o) (ho : hasLargeOffset o = true) :
    (l.take k).countP hasLargeOffset < l.countP hasLargeOffset := by
  obtain ⟨hklen, hget⟩ := List.get?_eq_some.mp hk
  conv_rhs => rw [← List.take_append_drop k l]
  rw [List.countP_append]
  rw [List.drop_eq_getElem_cons hklen]
  have hoe : l[k] = o := by
    rw [← hget]
    rfl
  rw [hoe, List.countP_cons_of_pos _ _ ho]
  omega

/-- Claim C6 (amended): the Large Offsets chunk is present iff some input
offset exceeds `2^32 - 1` (not `2^31 - 1`); decoding any entry through
`nth_midxed_object_details` reproduces its exact original offset; and when
the chunk is present, every entry whose offset has bit 31 set stores a
high-bit-set word whose low 31 bits are an in-range index into the chunk,
holding the offset's two 32-bit halves. -/
theorem midx_large_offset_escape
    {names : List (List Nat)} {l : List PackMidxEntry} {f : MidxFile}
    (hnames : names.Nodup)
    (hs : l.Pairwise entryLt)
    (hperm : ∀ o ∈ l, o.pack_int_id < names.length)
    (hfb : ∀ o ∈ l, fbyte o < 256)
    (hw : write_midx_file true names l = some f) :
    (f.large_offsets ≠ none ↔
      l.any (fun o => decide (0xffffffff < o.offset)) = true) ∧
    (∀ k o, l.get? k = some o →
      nth_midxed_object_details (midxFromFile f) k =
        some ((sort_packs_by_name names).2.getD o.pack_int_id 0, o.offset)) ∧
    (∀ k o los, l.get? k = some o → f.large_offsets = some los →
      2 ^ 31 ≤ o.offset →
      2 ^ 31 ≤ (f.object_offsets.getD k (0, 0)).2 ∧
      (f.object_offsets.getD k (0, 0)).2 - 2 ^ 31 < los.length ∧
      los.getD ((f.object_offsets.getD k (0, 0)).2 - 2 ^ 31) (0, 0) =
        (o.offset / 2 ^ 32, o.offset % 2 ^ 32)) := by
  obtain ⟨f2, hw2, holv, hfanv, hoov, hlov, hpnv, hnpv⟩ :=
    write_midx_file_success hnames hs hperm
  rw [hw] at hw2
  injection hw2 with hff
  subst hff
  have hM : MIDX_LARGE_OFFSET_NEEDED = 2 ^ 31 := by norm_num [MIDX_LARGE_OFFSET_NEEDED]
  refine ⟨?_, nth_midxed_details_correct hnames hs hperm hfb hw, ?_⟩
  · rw [hlov]
    rcases hL : l.any (fun o => decide (0xffffffff < o.offset)) with _ | _ <;> simp
  · intro k o los hk hlos hbig
    have hL : l.any (fun o => decide (0xffffffff < o.offset)) = true := by
      by_contra hx
      rw [Bool.not_eq_true] at hx
      rw [hx] at hlov
      simp at hlov
      rw [hlov] at hlos
      cases hlos
    rw [hL] at hoov hlov
    simp only [if_true, ite_true] at hoov hlov
    rw [hlov] at hlos
    injection hlos with hlos
    subst hlos
    have hbigNe : o.offset / 2 ^ 31 ≠ 0 := by
      intro hx
      have := (Nat.div_eq_zero_iff (by norm_num : (0:Nat) < 2 ^ 31)).mp hx
      omega
    have hd := @offsetsSpec_getD true (sort_packs_by_name names).2 l k 0 o hk
    rw [if_pos ⟨rfl, hbigNe⟩] at hd
    have hbigT : hasLargeOffset o = true := hasLargeOffset_true.mpr hbigNe
    rw [hoov, hd]
    refine ⟨by simp [hM], ?_, ?_⟩
    · rw [largeSpec_length]
      have := countP_take_lt hk hbigT
      simp [hM]
      omega
    · have hidx : MIDX_LARGE_OFFSET_NEEDED + (0 + (l.take k).countP hasLargeOffset)
          - 2 ^ 31 = (l.take k).countP hasLargeOffset := by
        rw [hM]
        omega
      simp only
      rw [hidx]
      exact largeSpec_getD l k o hk hbigT


/-- Concrete entry whose offset is exactly `2^31`: large enough for the
escape threshold the claim names, small enough that no large-offset chunk is
written. -/
def entryHuge31 : PackMidxEntry := ⟨List.replicate 20 7, 0, 2147483648, 0⟩

set_option maxRecDepth 400000 in
/-- Claim C6 as stated is false: for an input whose only offset is `2^31`
the builder emits no Large Offsets chunk at all — the offset word is the
literal value (with bit 31 set), not an index. -/
theorem midx_large_offset_escape_claim_false :
    2 ^ 31 ≤ entryHuge31.offset ∧
    (build_midx true [[97]] [entryHuge31]).map MidxFile.large_offsets = some none ∧
    (build_midx true [[97]] [entryHuge31]).map MidxFile.object_offsets =
      some [(0, 2147483648)] := by
  refine ⟨by decide, by decide, by decide⟩

/-- Concrete small-offset entry. -/
def entryL1 : PackMidxEntry := ⟨List.replicate 20 1, 0, 5, 0⟩

/-- Concrete entry with offset `2^31` (escape-encoded once large offsets are
in use). -/
def entryL4 : PackMidxEntry := ⟨List.replicate 20 4, 0, 2 ^ 31, 0⟩

/-- Concrete entry with an offset above `2^32`. -/
def entryL9 : PackMidxEntry := ⟨List.replicate 20 9, 0, 2 ^ 33 + 7, 0⟩

/-- Concrete sorted entry list that needs the Large Offsets chunk. -/
def exampleObjectsL : List PackMidxEntry := [entryL1, entryL4, entryL9]

/-- The MIDX written for `exampleObjectsL`. -/
def exampleMidxFileL : MidxFile where
  num_packs := 1
  num_chunks := 6
  chunk_ids := [MIDX_CHUNKID_PACKLOOKUP, MIDX_CHUNKID_OIDFANOUT,
                MIDX_CHUNKID_OIDLOOKUP, MIDX_CHUNKID_OBJECTOFFSETS,
                MIDX_CHUNKID_LARGEOFFSETS, MIDX_CHUNKID_PACKNAMES, 0]
  chunk_offsets := [100, 104, 1128, 1188, 1212, 1228, 1230]
  pack_lookup := [0]
  pack_names := [[97]]
  oid_fanout := List.replicate 1 0 ++ List.replicate 3 1 ++ List.replicate 5 2 ++
    List.replicate 247 3
  oid_lookup := [List.replicate 20 1, List.replicate 20 4, List.replicate 20 9]
  object_offsets := [(0, 5), (0, 2147483648), (0, 2147483649)]
  large_offsets := some [(0, 2147483648), (2, 7)]

set_option maxRecDepth 400000 in
theorem exampleMidxFileL_eq :
    write_midx_file true [[97]] exampleObjectsL = some exampleMidxFileL := by
  decide

set_option maxRecDepth 400000 in
/-- Witness for `midx_large_offset_escape` at the concrete three-entry
input with offsets 5, `2^31` and `2^33 + 7`. -/
theorem midx_large_offset_escape_witness :
    (exampleMidxFileL.large_offsets ≠ none ↔
      exampleObjectsL.any (fun o => decide (0xffffffff < o.offset)) = true) ∧
    nth_midxed_object_details (midxFromFile exampleMidxFileL) 2 =
      some ((sort_packs_by_name [[97]]).2.getD 0 0, 2 ^ 33 + 7) ∧
    (2 ^ 31 ≤ (exampleMidxFileL.object_offsets.getD 2 (0, 0)).2 ∧
     (exampleMidxFileL.object_offsets.getD 2 (0, 0)).2 - 2 ^ 31 <
       [(0, 2147483648), (2, 7)].length ∧
     ([(0, 2147483648), (2, 7)] : List (Nat × Nat)).getD
         ((exampleMidxFileL.object_offsets.getD 2 (0, 0)).2 - 2 ^ 31) (0, 0) =
       ((2 ^ 33 + 7) / 2 ^ 32, (2 ^ 33 + 7) % 2 ^ 32)) := by
  have h := @midx_large_offset_escape [[97]] exampleObjectsL
    exampleMidxFileL (by decide) (by decide) (by decide) (by decide)
    exampleMidxFileL_eq
  refine ⟨h.1, ?_, ?_⟩
  · exact h.2.1 2 entryL9 (by decide)
  · exact h.2.2 2 entryL9 [(0, 2147483648), (2, 7)] (by decide) (by decide) (by decide)


/-! ## Binary-search correctness -/

theorem bytesCmp_lt_of_fbyte_lt {a b : List Nat} (h : a.getD 0 0 < b.getD 0 0) :
    bytesCmp a b = .lt := by
  cases a with
  | nil =>
    cases b with
    | nil => simp at h
    | cons y ys => simp [bytesCmp]
  | cons x xs =>
    cases b with
    | nil => simp at h
    | cons y ys =>
      simp at h
      simp [bytesCmp, Nat.compare_eq_lt.mpr h]

theorem pairwise_getD_lt {lookup : List (List Nat)}
    (hsorted : lookup.Pairwise (fun a b => bytesCmp a b = .lt))
    {i j : Nat} (hij : i < j) (hj : j < lookup.length) :
    bytesCmp (lookup.getD i []) (lookup.getD j []) = .lt := by
  have hi : i < lookup.length := Nat.lt_trans hij hj
  rw [List.getD_eq_getElem _ _ hi, List.getD_eq_getElem _ _ hj]
  exact List.pairwise_iff_getElem.mp hsorted i j hi hj hij

theorem bsearchGo_correct {lookup : List (List Nat)} {key : List Nat}
    (hsorted : lookup.Pairwise (fun a b => bytesCmp a b = .lt)) :
    ∀ fuel first last,
    last ≤ lookup.length →
    last - first ≤ fuel →
    (∀ j, j < first → bytesCmp (lookup.getD j []) key = .lt) →
    (∀ j, last ≤ j → j < lookup.length → bytesCmp key (lookup.getD j []) = .lt) →
    ((bsearchGo lookup key fuel first last).1 = true →
       (bsearchGo lookup key fuel first last).2 < lookup.length ∧
       lookup.getD (bsearchGo lookup key fuel first last).2 [] = key) ∧
    ((bsearchGo lookup key fuel first last).1 = false → key ∉ lookup) := by
  intro fuel
  induction fuel with
  | zero =>
    intro first last hlast hfuel hlow hhigh
    constructor
    · intro hfound
      simp [bsearchGo] at hfound
    · intro _ hmem
      rcases List.mem_iff_getElem.mp hmem with ⟨j, hj, hjeq⟩
      have hjD : lookup.getD j [] = key := by
        rw [List.getD_eq_getElem _ _ hj, hjeq]
      by_cases hjf : j < first
      · have := hlow j hjf
        rw [hjD, bytesCmp_self] at this
        cases this
      · have hjl : last ≤ j := by omega
        have := hhigh j hjl hj
        rw [hjD, bytesCmp_self] at this
        cases this
  | succ fuel ih =>
    intro first last hlast hfuel hlow hhigh
    by_cases hfl : first < last
    · have hmidlt : first + (last - first) / 2 < last := by omega
      have hmidlen : first + (last - first) / 2 < lookup.length := by omega
      set mid := first + (last - first) / 2 with hmid
      rcases hc : bytesCmp key (lookup.getD mid []) with _ | _ | _
      · -- key < lookup[mid]: shrink right edge to mid
        have hstep : bsearchGo lookup key (fuel + 1) first last =
            bsearchGo lookup key fuel first mid := by
          rw [bsearchGo, if_pos hfl]
          simp only [hc]
        rw [hstep]
        apply ih first mid (by omega) (by omega) hlow
        intro j hjm hjlen
        by_cases hje : j = mid
        · rw [hje]; exact hc
        · have hlt := pairwise_getD_lt hsorted (i := mid) (j := j) (by omega) hjlen
          exact bytesCmp_lt_trans hc hlt
      · -- key = lookup[mid]: found
        have hkey : lookup.getD mid [] = key := (bytesCmp_eq_iff.mp hc).symm
        have hstep : bsearchGo lookup key (fuel + 1) first last = (true, mid) := by
          rw [bsearchGo, if_pos hfl]
          simp only [hc]
        rw [hstep]
        exact ⟨fun _ => ⟨hmidlen, hkey⟩, fun hx => by cases hx⟩
      · -- key > lookup[mid]: shrink left edge to mid+1
        have hstep : bsearchGo lookup key (fuel + 1) first last =
            bsearchGo lookup key fuel (mid + 1) last := by
          rw [bsearchGo, if_pos hfl]
          simp only [hc]
        rw [hstep]
        have hmidkey : bytesCmp (lookup.getD mid []) key = .lt := by
          rw [bytesCmp_swap, hc]
          rfl
        apply ih (mid + 1) last hlast (by omega) ?_ hhigh
        intro j hjm
        by_cases hje : j = mid
        · rw [hje]; exact hmidkey
        · have hjmid : j < mid := by omega
          have hlt := pairwise_getD_lt hsorted (i := j) (j := mid) hjmid hmidlen
          exact bytesCmp_lt_trans hlt hmidkey
    · have hstep : bsearchGo lookup key (fuel + 1) first last = (false, first) := by
        rw [bsearchGo, if_neg hfl]
      rw [hstep]
      constructor
      · intro hx; cases hx
      · intro _ hmem
        rcases List.mem_iff_getElem.mp hmem with ⟨j, hj, hjeq⟩
        have hjD : lookup.getD j [] = key := by
          rw [List.getD_eq_getElem _ _ hj, hjeq]
        by_cases hjf : j < first
        · have := hlow j hjf
          rw [hjD, bytesCmp_self] at this
          cases this
        · have hjl : last ≤ j := by omega
          have := hhigh j hjl hj
          rw [hjD, bytesCmp_self] at this
          cases this


theorem fb_le_of_lt_countP :
    ∀ {l : List PackMidxEntry}, l.Pairwise entryLt → ∀ {c j : Nat},
    j < l.countP (fun o => decide (fbyte o ≤ c)) →
    ∃ h : j < l.length, fbyte l[j] ≤ c := by
  intro l
  induction l with
  | nil => intro _ c j hj; simp at hj
  | cons hd rest ih =>
    intro hs c j hj
    rcases List.pairwise_cons.mp hs with ⟨hhd, hrest⟩
    rw [List.countP_cons] at hj
    rcases hp : decide (fbyte hd ≤ c) with _ | _
    · have hz : rest.countP (fun o => decide (fbyte o ≤ c)) = 0 := by
        apply List.countP_eq_zero.mpr
        intro x hx
        have h1 : fbyte hd ≤ fbyte x := entryLt_fbyte (hhd x hx)
        simp at hp ⊢
        omega
      rw [hp, hz] at hj
      simp at hj
    · rw [hp] at hj
      simp only [if_true, ite_true] at hj
      cases j with
      | zero =>
        refine ⟨by simp, ?_⟩
        simp at hp
        simpa using hp
      | succ j =>
        have hj2 : j < rest.countP (fun o => decide (fbyte o ≤ c)) := by omega
        rcases ih hrest hj2 with ⟨hlen, hfb⟩
        exact ⟨by simpa using Nat.succ_lt_succ hlen, by simpa using hfb⟩

theorem fb_gt_of_ge_countP :
    ∀ {l : List PackMidxEntry}, l.Pairwise entryLt → ∀ {c j : Nat},
    l.countP (fun o => decide (fbyte o ≤ c)) ≤ j → ∀ h : j < l.length,
    c < fbyte l[j] := by
  intro l
  induction l with
  | nil => intro _ c j _ h; simp at h
  | cons hd rest ih =>
    intro hs c j hj h
    rcases List.pairwise_cons.mp hs with ⟨hhd, hrest⟩
    rw [List.countP_cons] at hj
    rcases hp : decide (fbyte hd ≤ c) with _ | _
    · cases j with
      | zero =>
        simp at hp
        simpa using hp
      | succ j =>
        have hb : j < rest.length := by simpa using h
        have hmem : rest.get ⟨j, hb⟩ ∈ rest := List.get_mem rest j hb
        have h1 : fbyte hd ≤ fbyte (rest.get ⟨j, hb⟩) := entryLt_fbyte (hhd _ hmem)
        simp at hp
        have h2 : c < fbyte (rest.get ⟨j, hb⟩) := by omega
        simpa [List.get_eq_getElem] using h2
    · rw [hp] at hj
      simp only [if_true, ite_true] at hj
      cases j with
      | zero => omega
      | succ j =>
        have hb : j < rest.length := by simpa using h
        have := ih hrest (c := c) (j := j) (by omega) hb
        simpa using this

/-- Correctness of `bsearch_midx` over a MIDX written from a strictly
sorted entry list: a hit returns a position holding exactly the key, and a
miss means the key is not among the stored OIDs. -/
theorem bsearch_midx_correct
    {names : List (List Nat)} {l : List PackMidxEntry} {f : MidxFile}
    (hnames : names.Nodup) (hs : l.Pairwise entryLt)
    (hperm : ∀ o ∈ l, o.pack_int_id < names.length)
    (hfb : ∀ o ∈ l, fbyte o < 256)
    (hw : write_midx_file true names l = some f)
    (key : List Nat) (hkey : key.getD 0 0 < 256) :
    ((bsearch_midx (midxFromFile f) key).1 = true →
       (bsearch_midx (midxFromFile f) key).2 < l.length ∧
       (l.map (·.oid)).getD (bsearch_midx (midxFromFile f) key).2 [] = key) ∧
    ((bsearch_midx (midxFromFile f) key).1 = false → key ∉ l.map (·.oid)) := by
  obtain ⟨f2, hw2, holv, hfanv, hoov, hlov, hpnv, hnpv⟩ :=
    write_midx_file_success hnames hs hperm
  rw [hw] at hw2
  injection hw2 with hff
  subst hff
  have hlookup : (midxFromFile f).chunk_oid_lookup = l.map (·.oid) := holv
  have hsortedL : (l.map (·.oid)).Pairwise (fun a b => bytesCmp a b = .lt) :=
    List.Pairwise.map _ (fun a b hab => hab) hs
  have hfan : ∀ i, i < 256 → (midxFromFile f).chunk_oid_fanout.getD i 0 =
      l.countP (fun o => decide (fbyte o ≤ i)) := by
    intro i hi
    show f.oid_fanout.getD i 0 = _
    rw [hfanv, write_midx_chunk_oidfanout_eq hs hfb, range_map_getD _ hi]
  have hmaplen : (l.map (·.oid)).length = l.length := List.length_map _ _
  have hgetmap : ∀ j (h : j < l.length), (l.map (·.oid)).getD j [] = l[j].oid := by
    intro j h
    rw [List.getD_eq_getElem _ _ (by omega : j < (l.map (·.oid)).length),
      List.getElem_map]
  unfold bsearch_midx
  rw [hlookup]
  by_cases hb0 : key.getD 0 0 = 0
  · simp only [hb0, ne_eq, not_true, if_false, ite_false, reduceIte]
    rw [hfan 0 (by norm_num)]
    rw [show l.length = (l.map (·.oid)).length from hmaplen.symm]
    apply bsearchGo_correct hsortedL
    · rw [hmaplen]
      exact List.countP_le_length _
    · omega
    · intro j hj
      cases hj
    · intro j hjc hjlen
      rw [hmaplen] at hjlen
      have hgt := fb_gt_of_ge_countP hs (c := 0) (j := j) hjc hjlen
      rw [hgetmap j hjlen]
      apply bytesCmp_lt_of_fbyte_lt
      rw [hb0]
      exact hgt
  · simp only [ne_eq, hb0, not_false_iff, if_true, ite_true]
    rw [hfan (key.getD 0 0) hkey, hfan (key.getD 0 0 - 1) (by omega)]
    rw [show l.length = (l.map (·.oid)).length from hmaplen.symm]
    apply bsearchGo_correct hsortedL
    · rw [hmaplen]
      exact List.countP_le_length _
    · omega
    · intro j hj
      rcases fb_le_of_lt_countP hs hj with ⟨hjlen, hjle⟩
      rw [hgetmap j hjlen]
      apply bytesCmp_lt_of_fbyte_lt
      have hfe : fbyte l[j] = l[j].oid.getD 0 0 := rfl
      have hle2 : fbyte l[j] ≤ key.getD 0 0 - 1 := hjle
      omega
    · intro j hjc hjlen
      rw [hmaplen] at hjlen
      have hgt := fb_gt_of_ge_countP hs hjc hjlen
      rw [hgetmap j hjlen]
      exact bytesCmp_lt_of_fbyte_lt hgt


/-- The permutation produced by `sort_packs_by_name` sends each pre-sort
pack id to the position of that pack's name in the sorted name list. -/
theorem sort_packs_perm_spec {names : List (List Nat)}
    {pre : Nat} (hpre : pre < names.length) :
    (sort_packs_by_name names).2.getD pre 0 < names.length ∧
    (sort_packs_by_name names).1.getD ((sort_packs_by_name names).2.getD pre 0) []
      = names.getD pre [] := by
  have hfst : (sort_packs_by_name names).1 =
      (List.insertionSort packPairLe ((List.range names.length).zip names)).map (·.2) := rfl
  have hsnd : (sort_packs_by_name names).2 =
      (List.range names.length).map (fun p =>
        (List.insertionSort packPairLe
          ((List.range names.length).zip names)).findIdx (fun pr => pr.1 == p)) := rfl
  set pairs := (List.range names.length).zip names with hpairs
  set sorted := List.insertionSort packPairLe pairs with hsorted
  have hplen : pairs.length = names.length := by
    rw [hpairs, List.length_zip, List.length_range, Nat.min_self]
  have hslen : sorted.length = names.length := by
    rw [hsorted, List.length_insertionSort, hplen]
  have hmem : (pre, names[pre]) ∈ sorted := by
    have hpg : pairs.get ⟨pre, by omega⟩ = (pre, names[pre]) := by
      have h2 : ((List.range names.length).zip names).get ⟨pre, by
          rw [List.length_zip, List.length_range, Nat.min_self]; exact hpre⟩ =
          (pre, names[pre]) := by
        rw [List.get_eq_getElem, List.getElem_zip, List.getElem_range]
      exact h2
    have : (pre, names[pre]) ∈ pairs := by
      rw [← hpg]
      exact List.get_mem _ _ _
    exact (List.perm_insertionSort packPairLe pairs).mem_iff.mpr this
  have hfstnd : (sorted.map Prod.fst).Nodup := by
    have h1 : (sorted.map Prod.fst).Perm (pairs.map Prod.fst) :=
      (List.perm_insertionSort packPairLe pairs).map Prod.fst
    have h2 : pairs.map Prod.fst = List.range names.length := by
      rw [hpairs]
      exact List.map_fst_zip _ _ (by rw [List.length_range])
    exact h1.nodup_iff.mpr (by rw [h2]; exact List.nodup_range _)
  have hex : ∃ x ∈ sorted, (fun pr : Nat × List Nat => pr.1 == pre) x = true :=
    ⟨(pre, names[pre]), hmem, by simp⟩
  have hlt : sorted.findIdx (fun pr => pr.1 == pre) < sorted.length :=
    List.findIdx_lt_length_of_exists hex
  have hpidx : (sorted.get ⟨sorted.findIdx (fun pr => pr.1 == pre), hlt⟩).1 = pre := by
    have := List.findIdx_getElem (w := hlt)
    simpa using this
  obtain ⟨j, hj, hjv⟩ := List.getElem_of_mem hmem
  have hji : j = sorted.findIdx (fun pr => pr.1 == pre) := by
    have hmap1 : (sorted.map Prod.fst).get ⟨j, by rw [List.length_map]; omega⟩
        = pre := by
      rw [List.get_eq_getElem, List.getElem_map, hjv]
    have hmap2 : (sorted.map Prod.fst).get
        ⟨sorted.findIdx (fun pr => pr.1 == pre), by rw [List.length_map]; omega⟩
        = pre := by
      rw [List.get_eq_getElem, List.getElem_map]
      exact hpidx
    simp only [List.get_eq_getElem] at hmap1 hmap2
    have := (List.Nodup.getElem_inj_iff hfstnd).mp (hmap1.trans hmap2.symm)
    exact this
  have hval : sorted.get ⟨sorted.findIdx (fun pr => pr.1 == pre), hlt⟩
      = (pre, names[pre]) := by
    subst hji
    exact hjv
  have hsndval : (sort_packs_by_name names).2.getD pre 0 =
      sorted.findIdx (fun pr => pr.1 == pre) := by
    rw [hsnd]
    exact range_map_getD _ hpre
  refine ⟨?_, ?_⟩
  · rw [hsndval]
    omega
  · rw [hsndval, hfst]
    simp only [List.get_eq_getElem] at hval
    rw [List.getD_eq_getElem _ _ (by rw [List.length_map]; omega),
      List.getElem_map, hval, List.getD_eq_getElem _ _ hpre]


/-! ## C1: build-then-read roundtrip -/

/-- Claim C1: building a MIDX from any pack-name list and object tuples and
reading it back yields exactly the distinct input OIDs; for every input
entry, `bsearch_midx` followed by `nth_midxed_object_details` returns its
pack id remapped through the lexicographic pack-name sort permutation
together with its original offset (the permutation indeed sends each
pre-sort id to its name's sorted position); and every absent OID misses. -/
theorem midx_build_read_roundtrip
    (names : List (List Nat)) (objects : List PackMidxEntry) (f : MidxFile)
    (hnames : names.Nodup)
    (hperm : ∀ o ∈ objects, o.pack_int_id < names.length)
    (hfb : ∀ o ∈ objects, o.oid.getD 0 0 < 256)
    (hagree : ∀ o ∈ objects, ∀ o2 ∈ objects, o.oid = o2.oid →
      o.pack_int_id = o2.pack_int_id ∧ o.offset = o2.offset)
    (hw : build_midx true names objects = some f) :
    (∀ key, key ∈ (midxFromFile f).chunk_oid_lookup ↔ key ∈ objects.map (·.oid)) ∧
    (midxFromFile f).chunk_oid_lookup.Nodup ∧
    (∀ o ∈ objects,
       (bsearch_midx (midxFromFile f) o.oid).1 = true ∧
       nth_midxed_object_details (midxFromFile f)
           (bsearch_midx (midxFromFile f) o.oid).2 =
         some ((sort_packs_by_name names).2.getD o.pack_int_id 0, o.offset)) ∧
    (∀ pre, pre < names.length →
       (sort_packs_by_name names).2.getD pre 0 < names.length ∧
       (midxFromFile f).pack_names.getD ((sort_packs_by_name names).2.getD pre 0) [] =
         names.getD pre []) ∧
    (∀ key, key.getD 0 0 < 256 → key ∉ objects.map (·.oid) →
       (bsearch_midx (midxFromFile f) key).1 = false) := by
  have hgw : write_midx_file true names (get_sorted_entries objects) = some f := hw
  have hs := get_sorted_entries_sorted objects
  have hperm2 : ∀ o ∈ get_sorted_entries objects, o.pack_int_id < names.length :=
    fun o ho => hperm o (get_sorted_entries_mem o ho)
  have hfb2 : ∀ o ∈ get_sorted_entries objects, fbyte o < 256 :=
    fun o ho => hfb o (get_sorted_entries_mem o ho)
  obtain ⟨f2, hw2, holv, hfanv, hoov, hlov, hpnv, hnpv⟩ :=
    write_midx_file_success hnames hs hperm2
  rw [hgw] at hw2
  injection hw2 with hff
  subst hff
  have hlkp : (midxFromFile f).chunk_oid_lookup =
      (get_sorted_entries objects).map (·.oid) := holv
  have hmemiff : ∀ key, key ∈ (get_sorted_entries objects).map (·.oid) ↔
      key ∈ objects.map (·.oid) := by
    intro key
    constructor
    · intro hk
      rcases List.mem_map.mp hk with ⟨k, hkmem, rfl⟩
      exact List.mem_map.mpr ⟨k, get_sorted_entries_mem k hkmem, rfl⟩
    · intro hk
      rcases List.mem_map.mp hk with ⟨o, homem, rfl⟩
      rcases get_sorted_entries_cover o homem with ⟨k, hkmem, hoid⟩
      exact List.mem_map.mpr ⟨k, hkmem, hoid⟩
  refine ⟨?_, ?_, ?_, ?_, ?_⟩
  · intro key
    rw [hlkp]
    exact hmemiff key
  · rw [hlkp]
    exact get_sorted_entries_oids_nodup objects
  · intro o ho
    have hkey256 : o.oid.getD 0 0 < 256 := hfb o ho
    have hbs := bsearch_midx_correct hnames hs hperm2 hfb2 hgw o.oid hkey256
    have hkeyin : o.oid ∈ (get_sorted_entries objects).map (·.oid) :=
      (hmemiff o.oid).mpr (List.mem_map.mpr ⟨o, ho, rfl⟩)
    rcases hfound : (bsearch_midx (midxFromFile f) o.oid).1 with _ | _
    · exact absurd hkeyin (hbs.2 hfound)
    · obtain ⟨hpos, hval⟩ := hbs.1 hfound
      refine ⟨rfl, ?_⟩
      have hget : (get_sorted_entries objects).get?
          (bsearch_midx (midxFromFile f) o.oid).2 =
          some ((get_sorted_entries objects).get
            ⟨(bsearch_midx (midxFromFile f) o.oid).2, hpos⟩) :=
        List.get?_eq_some.mpr ⟨hpos, rfl⟩
      have hoid : ((get_sorted_entries objects).get
          ⟨(bsearch_midx (midxFromFile f) o.oid).2, hpos⟩).oid = o.oid := by
        rw [List.getD_eq_getElem _ _ (by
            rw [List.length_map]; exact hpos), List.getElem_map] at hval
        simpa [List.get_eq_getElem] using hval
      have hin2 : (get_sorted_entries objects).get
          ⟨(bsearch_midx (midxFromFile f) o.oid).2, hpos⟩ ∈ objects :=
        get_sorted_entries_mem _ (List.get_mem _ _ _)
      obtain ⟨hpk, hof⟩ := hagree _ hin2 o ho hoid
      have hnth := nth_midxed_details_correct hnames hs hperm2 hfb2 hgw
        (bsearch_midx (midxFromFile f) o.oid).2 _ hget
      rw [hnth, hpk, hof]
  · intro pre hpre
    have hsp := sort_packs_perm_spec hpre
    refine ⟨hsp.1, ?_⟩
    rw [show (midxFromFile f).pack_names = f.pack_names from rfl, hpnv]
    exact hsp.2
  · intro key hk256 hnot
    have hnotl : key ∉ (get_sorted_entries objects).map (·.oid) :=
      fun hk => hnot ((hmemiff key).mp hk)
    have hbs := bsearch_midx_correct hnames hs hperm2 hfb2 hgw key hk256
    rcases hfound : (bsearch_midx (midxFromFile f) key).1 with _ | _
    · rfl
    · exfalso
      obtain ⟨hpos, hval⟩ := hbs.1 hfound
      apply hnotl
      rw [← hval]
      rw [List.getD_eq_getElem _ _ (by rw [List.length_map]; exact hpos)]
      exact List.getElem_mem _

set_option maxRecDepth 400000 in
/-- C1 witness: on the concrete build `exampleMidxFileB`, the stored OIDs
are the distinct input OIDs, the duplicated entry is found with its
remapped pack id and offset, and an absent key misses. -/
theorem midx_build_read_roundtrip_witness :
    (entryA5.oid ∈ (midxFromFile exampleMidxFileB).chunk_oid_lookup ↔
      entryA5.oid ∈ exampleObjectsB.map (·.oid)) ∧
    (bsearch_midx (midxFromFile exampleMidxFileB) entryA5.oid).1 = true ∧
    nth_midxed_object_details (midxFromFile exampleMidxFileB)
        (bsearch_midx (midxFromFile exampleMidxFileB) entryA5.oid).2 =
      some ((sort_packs_by_name examplePacksB).2.getD entryA5.pack_int_id 0,
            entryA5.offset) ∧
    (bsearch_midx (midxFromFile exampleMidxFileB) (List.replicate 20 9)).1 = false := by
  have h := midx_build_read_roundtrip examplePacksB exampleObjectsB exampleMidxFileB
    (by decide) (by decide) (by decide) (by decide) exampleMidxFileB_eq
  refine ⟨h.1 entryA5.oid, ?_, ?_,
    h.2.2.2.2 (List.replicate 20 9) (by decide) (by decide)⟩
  · exact (h.2.2.1 entryA5 (by decide)).1
  · exact (h.2.2.1 entryA5 (by decide)).2


/-! ## C4: duplicate collapse and the missing mtime tiebreak -/

/-- Embedding of `midx_oid_compare` (midx.c lines 24-29): the comparator
passed to `QSORT` over the object entries.  It compares the OIDs and
nothing else; in particular `pack_mtime` plays no part. -/
def midx_oid_compare (a b : PackMidxEntry) : Ordering := bytesCmp a.oid b.oid

/-- The non-strict order induced by `midx_oid_compare`. -/
def midx_oid_le (a b : PackMidxEntry) : Prop := midx_oid_compare a b ≠ Ordering.gt

instance : DecidableRel midx_oid_le := fun a b =>
  (inferInstance : Decidable (midx_oid_compare a b ≠ Ordering.gt))

/-- A C `QSORT` call: qsort guarantees only that the output is a
permutation of the input that is ordered by the comparator; elements the
comparator deems equal may come out in either order (qsort is unstable). -/
def qsort_result (le : PackMidxEntry → PackMidxEntry → Prop)
    (input output : List PackMidxEntry) : Prop :=
  output.Perm input ∧ output.Pairwise le

instance {le : PackMidxEntry → PackMidxEntry → Prop} [DecidableRel le]
    {input output : List PackMidxEntry} :
    Decidable (qsort_result le input output) :=
  (inferInstance : Decidable (output.Perm input ∧ output.Pairwise le))

/-- Embedding of the first version of `write_midx_chunk_objectoffsets`
(midx.c lines 112-138): entries whose OID equals the last written OID are
skipped, and each surviving entry writes `pack_perm[pack_int_id]` and an
offset word (the large-offset escape when `large_offset_needed` is set
and the offset occupies more than 31 bits, the truncated 32-bit offset
otherwise). -/
def objectoffsetsV1Go (large : Bool) (perm : List Nat) :
    Option (List Nat) → Nat → List PackMidxEntry → List (Nat × Nat)
  | _, _, [] => []
  | lastOid, nrLarge, o :: rest =>
    if (match lastOid with
        | some p => bytesCmp p o.oid == Ordering.eq
        | none => false) = true then
      objectoffsetsV1Go large perm lastOid nrLarge rest
    else if large = true ∧ o.offset / 2 ^ 31 ≠ 0 then
      (perm.getD o.pack_int_id 0, MIDX_LARGE_OFFSET_NEEDED + nrLarge) ::
        objectoffsetsV1Go large perm (some o.oid) (nrLarge + 1) rest
    else
      (perm.getD o.pack_int_id 0, o.offset % 2 ^ 32) ::
        objectoffsetsV1Go large perm (some o.oid) nrLarge rest

/-- Same-OID entry recorded with pack 0, offset 100, pack_mtime 0. -/
def entryD0 : PackMidxEntry := ⟨List.replicate 20 3, 0, 100, 0⟩

/-- Same-OID entry recorded with pack 1, offset 200, pack_mtime 5. -/
def entryD5 : PackMidxEntry := ⟨List.replicate 20 3, 1, 200, 5⟩

set_option maxRecDepth 100000 in
/-- Claim C4: `midx_oid_compare` compares nothing but the OIDs — there is
no pack-mtime tiebreak — so for two entries sharing an OID with mtimes 0
and 5 both relative orders are valid outputs of the unstable `QSORT`, and
the duplicate-skipping object-offsets writer records the pack and offset
of whichever entry happens to come first.  The claimed guarantee that the
older (mtime 0) entry's pack and offset survive does not hold. -/
theorem midx_oid_compare_no_mtime_tiebreak :
    midx_oid_compare entryD5 entryD0 = Ordering.eq ∧
    entryD5.pack_mtime ≠ entryD0.pack_mtime ∧
    qsort_result midx_oid_le [entryD0, entryD5] [entryD0, entryD5] ∧
    qsort_result midx_oid_le [entryD0, entryD5] [entryD5, entryD0] ∧
    objectoffsetsV1Go false [0, 1] none 0 [entryD0, entryD5] = [(0, 100)] ∧
    objectoffsetsV1Go false [0, 1] none 0 [entryD5, entryD0] = [(1, 200)] := by
  refine ⟨by decide, by decide, ⟨?_, by decide⟩, ⟨?_, by decide⟩, by decide, by decide⟩
  · exact List.Perm.refl _
  · exact List.Perm.swap _ _ _


/-! ## C8: the loader's validation of a MIDX file -/

/-- A big-endian 32-bit read from the mapped file, `ntohl(*(uint32_t*)(data + p))`.
Reads past the end of the list yield 0 (the C code reads whatever the
mapping holds; the theorems only depend on in-bounds reads). -/
def readBE32 (d : List Nat) (p : Nat) : Nat :=
  d.getD p 0 * 2 ^ 24 + d.getD (p + 1) 0 * 2 ^ 16 +
    d.getD (p + 2) 0 * 2 ^ 8 + d.getD (p + 3) 0

/-- The fields `load_midxed_git_one` populates: the header counts and one
optional chunk offset per chunk pointer of `struct midxed_git`. -/
structure MidxedGitRaw where
  num_chunks : Nat
  num_packs : Nat
  num_objects : Nat
  chunk_pack_lookup : Option Nat
  chunk_pack_names : Option Nat
  chunk_oid_fanout : Option Nat
  chunk_oid_lookup : Option Nat
  chunk_object_offsets : Option Nat
  chunk_large_offsets : Option Nat
deriving DecidableEq, Repr

/-- The chunk-table loop of `load_midxed_git_one` (midx.c): record `i` sits
at byte `16 + 12 i` as a 4-byte id and a 64-bit offset in two halves; on a
4-byte-pointer host an offset above 32 bits dies; recognized ids set the
matching pointer and unknown ids are ignored.  The loop runs
`num_chunks + 1` times (`i <= hdr->num_chunks`), here the fuel. -/
def load_midx_chunks (d : List Nat) (ptrSize : Nat) :
    Nat → Nat → MidxedGitRaw → Option MidxedGitRaw
  | 0, _, m => some m
  | n + 1, i, m =>
    let chunk_id := readBE32 d (16 + 12 * i)
    let chunk_offset := readBE32 d (16 + 12 * i + 4) * 2 ^ 32 +
      readBE32 d (16 + 12 * i + 8)
    if ptrSize = 4 ∧ chunk_offset / 2 ^ 32 ≠ 0 then none
    else
      let m2 :=
        if chunk_id = MIDX_CHUNKID_PACKLOOKUP then
          { m with chunk_pack_lookup := some chunk_offset }
        else if chunk_id = MIDX_CHUNKID_PACKNAMES then
          { m with chunk_pack_names := some chunk_offset }
        else if chunk_id = MIDX_CHUNKID_OIDFANOUT then
          { m with chunk_oid_fanout := some chunk_offset }
        else if chunk_id = MIDX_CHUNKID_OIDLOOKUP then
          { m with chunk_oid_lookup := some chunk_offset }
        else if chunk_id = MIDX_CHUNKID_OBJECTOFFSETS then
          { m with chunk_object_offsets := some chunk_offset }
        else if chunk_id = MIDX_CHUNKID_LARGEOFFSETS then
          { m with chunk_large_offsets := some chunk_offset }
        else m
      load_midx_chunks d ptrSize n (i + 1) m2

/-- The pack-name pointer loop of `load_midxed_git_one` (midx.c): entry `i`
of the Pack-Name Lookup chunk gives `name_offset`, and a name pointer at or
past the end of the mapping dies.  Returns the absolute name offsets. -/
def load_pack_name_ptrs (d : List Nat) (pl pn : Nat) :
    Nat → Nat → Option (List Nat)
  | 0, _ => some []
  | n + 1, i =>
    let name_offset := readBE32 d (pl + 4 * i)
    if d.length ≤ pn + name_offset then none
    else (load_pack_name_ptrs d pl pn n (i + 1)).map
      (fun rest => (pn + name_offset) :: rest)

/-- Embedding of `load_midxed_git_one` (midx.c) over the raw file bytes.
`rawsz` stands for `GIT_MAX_RAWSZ` (defined outside this repository's
files) and `ptrSize` for the host's `sizeof(data)`.  The checks performed,
in order: minimum size, signature, version, the chunk-table loop's 32-bit
guard, then presence of the OID Fanout, Pack-Name Lookup and Pack Names
chunks; `num_objects` comes from fanout entry 255 and, when packs exist,
every pack-name pointer must land inside the mapping.  Nothing else is
validated — in particular not `hash_len` and not the presence of the OID
Lookup or Object Offsets chunks. -/
def load_midxed_git_one (rawsz ptrSize : Nat) (d : List Nat) : Option MidxedGitRaw :=
  if d.length < 16 + 8 * 5 + 4 * 256 + rawsz then none
  else if readBE32 d 0 ≠ MIDX_SIGNATURE then none
  else if readBE32 d 4 ≠ MIDX_VERSION then none
  else
    let num_chunks := d.getD 11 0
    let num_packs := readBE32 d 12
    match load_midx_chunks d ptrSize (num_chunks + 1) 0
        ⟨num_chunks, num_packs, 0, none, none, none, none, none, none⟩ with
    | none => none
    | some m =>
      match m.chunk_oid_fanout with
      | none => none
      | some fo =>
        if m.chunk_pack_lookup = none then none
        else if m.chunk_pack_names = none then none
        else
          let m2 := { m with num_objects := readBE32 d (fo + 255 * 4) }
          if num_packs ≠ 0 then
            match load_pack_name_ptrs d (m.chunk_pack_lookup.getD 0)
                (m.chunk_pack_names.getD 0) num_packs 0 with
            | none => none
            | some _ => some m2
          else some m2


theorem load_midx_chunks_offsets {d : List Nat} :
    ∀ (n i : Nat) (m0 m : MidxedGitRaw),
    load_midx_chunks d 4 n i m0 = some m →
    ∀ j, i ≤ j → j < i + n →
      (readBE32 d (16 + 12 * j + 4) * 2 ^ 32 + readBE32 d (16 + 12 * j + 8)) / 2 ^ 32
        = 0 := by
  intro n
  induction n with
  | zero =>
    intro i m0 m _ j h1 h2
    omega
  | succ k ih =>
    intro i m0 m h j h1 h2
    rw [load_midx_chunks] at h
    by_cases hc : (4 : Nat) = 4 ∧
        (readBE32 d (16 + 12 * i + 4) * 2 ^ 32 + readBE32 d (16 + 12 * i + 8)) /
          2 ^ 32 ≠ 0
    · rw [if_pos hc] at h
      exact absurd h (by simp)
    · rw [if_neg hc] at h
      rcases Nat.eq_or_lt_of_le h1 with rfl | hgt
      · have := fun hne => hc ⟨rfl, hne⟩
        by_contra hne
        exact (this hne).elim
      · exact ih (i + 1) _ m h j hgt (by omega)

/-- Claim C8 (amended): when `load_midxed_git_one` returns a reader, the
file met the minimum size, carried the right signature and version, the
OID Fanout, Pack-Name Lookup and Pack Names chunks were present, and on a
4-byte-pointer host every chunk offset fit in 32 bits.  (These are the
only format checks: `hash_len` and the OID Lookup / Object Offsets chunks
are not validated — see the counterexample.) -/
theorem load_midxed_git_one_checks {rawsz ptrSize : Nat} {d : List Nat}
    {m : MidxedGitRaw} (h : load_midxed_git_one rawsz ptrSize d = some m) :
    16 + 8 * 5 + 4 * 256 + rawsz ≤ d.length ∧
    readBE32 d 0 = MIDX_SIGNATURE ∧
    readBE32 d 4 = MIDX_VERSION ∧
    m.chunk_oid_fanout ≠ none ∧
    m.chunk_pack_lookup ≠ none ∧
    m.chunk_pack_names ≠ none ∧
    (ptrSize = 4 → ∀ j, j ≤ d.getD 11 0 →
      (readBE32 d (16 + 12 * j + 4) * 2 ^ 32 + readBE32 d (16 + 12 * j + 8)) / 2 ^ 32
        = 0) := by
  unfold load_midxed_git_one at h
  by_cases h1 : d.length < 16 + 8 * 5 + 4 * 256 + rawsz
  · rw [if_pos h1] at h
    exact absurd h (by simp)
  rw [if_neg h1] at h
  by_cases h2 : readBE32 d 0 ≠ MIDX_SIGNATURE
  · rw [if_pos h2] at h
    exact absurd h (by simp)
  rw [if_neg h2] at h
  by_cases h3 : readBE32 d 4 ≠ MIDX_VERSION
  · rw [if_pos h3] at h
    exact absurd h (by simp)
  rw [if_neg h3] at h
  simp only [] at h
  rcases hck : load_midx_chunks d ptrSize (d.getD 11 0 + 1) 0
      ⟨d.getD 11 0, readBE32 d 12, 0, none, none, none, none, none, none⟩ with _ | mc
  · rw [hck] at h
    exact absurd h (by simp)
  rw [hck] at h
  dsimp only at h
  rcases hfo : mc.chunk_oid_fanout with _ | fo
  · rw [hfo] at h
    exact absurd h (by simp)
  rw [hfo] at h
  dsimp only at h
  by_cases h4 : mc.chunk_pack_lookup = none
  · rw [if_pos h4] at h
    exact absurd h (by simp)
  rw [if_neg h4] at h
  by_cases h5 : mc.chunk_pack_names = none
  · rw [if_pos h5] at h
    exact absurd h (by simp)
  rw [if_neg h5] at h
  have h32 : ptrSize = 4 → ∀ j, j ≤ d.getD 11 0 →
      (readBE32 d (16 + 12 * j + 4) * 2 ^ 32 + readBE32 d (16 + 12 * j + 8)) / 2 ^ 32
        = 0 := by
    intro hp j hj
    subst hp
    exact load_midx_chunks_offsets _ 0 _ mc hck j (Nat.zero_le j) (by omega)
  have hm : m.chunk_oid_fanout = some fo ∧ m.chunk_pack_lookup = mc.chunk_pack_lookup ∧
      m.chunk_pack_names = mc.chunk_pack_names := by
    by_cases h6 : readBE32 d 12 ≠ 0
    · rw [if_pos h6] at h
      rcases hpn : load_pack_name_ptrs d (mc.chunk_pack_lookup.getD 0)
          (mc.chunk_pack_names.getD 0) (readBE32 d 12) 0 with _ | ptrs
      · rw [hpn] at h
        exact absurd h (by simp)
      · rw [hpn] at h
        injection h with hme
        subst hme
        exact ⟨rfl, rfl, rfl⟩
    · rw [if_neg h6] at h
      injection h with hme
      subst hme
      exact ⟨rfl, rfl, rfl⟩
  refine ⟨by omega, by omega, by omega, ?_, ?_, ?_, h32⟩
  · rw [hm.1]
    simp
  · rw [hm.2.1]
    exact h4
  · rw [hm.2.2]
    exact h5

/-- A 1112-byte file whose header declares `hash_len` 19 (the format's
hash length is 20) and whose chunk table lists only OID Fanout, Pack-Name
Lookup and Pack Names — no OID Lookup, no Object Offsets. -/
def exampleBadHeaderFile : List Nat :=
  [77, 73, 68, 88, 128, 0, 0, 1, 1, 19, 0, 3, 0, 0, 0, 0] ++
  [0x4f, 0x49, 0x44, 0x46, 0, 0, 0, 0, 0, 0, 0, 64] ++
  [0x50, 0x4c, 0x4f, 0x4f, 0, 0, 0, 0, 0, 0, 0, 64] ++
  [0x50, 0x4e, 0x41, 0x4d, 0, 0, 0, 0, 0, 0, 0, 64] ++
  List.replicate 1060 0

/-- What the loader returns for `exampleBadHeaderFile`. -/
def exampleLoadedH : MidxedGitRaw :=
  ⟨3, 0, 0, some 64, some 64, some 64, none, none, none⟩

set_option maxRecDepth 1000000 in
/-- Counterexample to claim C8 as stated: the loader accepts a file whose
`hash_len` byte is 19 rather than 20 and whose chunk table has neither an
OID Lookup nor an Object Offsets chunk, so "wrong hash-length" and two of
the claimed five required chunks are not validated. -/
theorem load_midxed_git_one_claim_false :
    exampleBadHeaderFile.getD 9 0 = 19 ∧
    load_midxed_git_one 32 8 exampleBadHeaderFile = some exampleLoadedH ∧
    exampleLoadedH.chunk_oid_lookup = none ∧
    exampleLoadedH.chunk_object_offsets = none := by
  refine ⟨by decide, by decide, by decide, by decide⟩

set_option maxRecDepth 1000000 in
/-- C8 witness: the checks of `load_midxed_git_one_checks` evaluated on the
concrete accepted file. -/
theorem load_midxed_git_one_checks_witness :
    16 + 8 * 5 + 4 * 256 + 32 ≤ exampleBadHeaderFile.length ∧
    readBE32 exampleBadHeaderFile 0 = MIDX_SIGNATURE ∧
    readBE32 exampleBadHeaderFile 4 = MIDX_VERSION ∧
    exampleLoadedH.chunk_oid_fanout ≠ none ∧
    exampleLoadedH.chunk_pack_lookup ≠ none ∧
    exampleLoadedH.chunk_pack_names ≠ none ∧
    ((8 : Nat) = 4 → ∀ j, j ≤ exampleBadHeaderFile.getD 11 0 →
      (readBE32 exampleBadHeaderFile (16 + 12 * j + 4) * 2 ^ 32 +
        readBE32 exampleBadHeaderFile (16 + 12 * j + 8)) / 2 ^ 32 = 0) :=
  load_midxed_git_one_checks
    (by decide : load_midxed_git_one 32 8 exampleBadHeaderFile = some exampleLoadedH)


/-! ## C9: verifier checksum on a truncated file -/

/-- Big-endian 4-byte encoding of a 32-bit value. -/
def be32 (n : Nat) : List Nat :=
  [n / 2 ^ 24 % 256, n / 2 ^ 16 % 256, n / 2 ^ 8 % 256, n % 256]

/-- Modelled from the spec: the 20-byte content hash written at the tail
of every MIDX and recomputed by the verifier.  The hash function itself
(`the_hash_algo`) lives outside this repository's files, so the
development takes a computable stand-in — the big-endian content length
followed by sixteen zero bytes.  The claims here rely only on the
verifier recomputing the same function the writer used and on contents of
different length hashing differently, which the stand-in provides. -/
def specHash (d : List Nat) : List Nat :=
  be32 (d.length % 2 ^ 32) ++ List.replicate 16 0

/-- The checksum phase of `midx_verify` (midx.c): rehash every byte except
the trailing `hash_len`, compare the 20 recomputed bytes against the
stored tail (`hashcmp`), and report 1 on mismatch. -/
def midx_verify_checksum (hash_len : Nat) (d : List Nat) : Nat :=
  if specHash (d.take (d.length - hash_len)) = (d.drop (d.length - hash_len)).take 20
  then 0 else 1

/-- Embedding of `midx_verify`'s load and checksum phases (midx.c): a file
the loader rejects reports an error (result 1); otherwise the checksum
failure bit is OR-ed into whatever the remaining phases — the hash-version
and chunk checks, pack checks and per-object checks, abstracted by the
oracle `rest` — contribute, exactly the function's
`verify_midx_error | checksum_fail` return. -/
def midx_verify (rawsz ptrSize : Nat) (rest : MidxedGitRaw → List Nat → Nat)
    (d : List Nat) : Nat :=
  match load_midxed_git_one rawsz ptrSize d with
  | none => 1
  | some m => rest m d ||| midx_verify_checksum (d.getD 9 0) d

theorem be32_inj {a b : Nat} (ha : a < 2 ^ 32) (hb : b < 2 ^ 32)
    (h : be32 a = be32 b) : a = b := by
  simp only [be32, List.cons.injEq, and_true] at h
  obtain ⟨h1, h2, h3, h4⟩ := h
  omega

/-- Claim C9 (amended): dropping the byte just before the trailing hash of
a well-formed MIDX (content `c` followed by its hash) makes the verifier's
recomputed hash differ from the stored tail, so it reports a checksum
mismatch and `midx_verify` returns nonzero whatever the other phases say.
The reader still opens the altered file — it runs no checksum check — so
the claim's "the reader refuses to open" part is refuted (see the
counterexample). -/
theorem midx_verify_truncated (c : List Nat) (m : MidxedGitRaw)
    (rest : MidxedGitRaw → List Nat → Nat)
    (hlen9 : c.getD 9 0 = 20)
    (hbig : 20 ≤ c.length) (hsmall : c.length < 2 ^ 32)
    (hload : load_midxed_git_one 32 8 (c.dropLast ++ specHash c) = some m) :
    midx_verify_checksum 20 (c.dropLast ++ specHash c) = 1 ∧
    midx_verify 32 8 rest (c.dropLast ++ specHash c) ≠ 0 := by
  have hDl : c.dropLast.length = c.length - 1 := List.length_dropLast c
  have hsh : (specHash c).length = 20 := by
    simp [specHash, be32]
  have hdlen : (c.dropLast ++ specHash c).length = (c.length - 1) + 20 := by
    rw [List.length_append, hDl, hsh]
  have hidx : (c.dropLast ++ specHash c).length - 20 = c.dropLast.length := by
    omega
  have htake : (c.dropLast ++ specHash c).take
      ((c.dropLast ++ specHash c).length - 20) = c.dropLast := by
    rw [hidx]
    exact List.take_left c.dropLast (specHash c)
  have hdrop : (c.dropLast ++ specHash c).drop
      ((c.dropLast ++ specHash c).length - 20) = specHash c := by
    rw [hidx]
    exact List.drop_left c.dropLast (specHash c)
  have hne : specHash c.dropLast ≠ (specHash c).take 20 := by
    rw [show (specHash c).take 20 = specHash c from by rw [← hsh, List.take_length]]
    intro heq
    unfold specHash at heq
    have h4 := (List.append_inj heq (by simp [be32])).1
    have hinj := be32_inj (Nat.mod_lt _ (by norm_num)) (Nat.mod_lt _ (by norm_num)) h4
    rw [hDl] at hinj
    have hm1 : (c.length - 1) % 2 ^ 32 = c.length - 1 := Nat.mod_eq_of_lt (by omega)
    have hm2 : c.length % 2 ^ 32 = c.length := Nat.mod_eq_of_lt hsmall
    omega
  have hchk : midx_verify_checksum 20 (c.dropLast ++ specHash c) = 1 := by
    unfold midx_verify_checksum
    rw [htake, hdrop, if_neg hne]
  refine ⟨hchk, ?_⟩
  have h9 : (c.dropLast ++ specHash c).getD 9 0 = 20 := by
    rw [List.getD_eq_getElem _ _ (by omega : 9 < (c.dropLast ++ specHash c).length)]
    rw [List.getElem_append_left (by omega : 9 < c.dropLast.length)]
    rw [List.getElem_dropLast]
    have hg : c.getD 9 0 = c.get ⟨9, by omega⟩ := List.getD_eq_getElem c 0 (by omega)
    rw [hlen9] at hg
    exact hg.symm
  unfold midx_verify
  rw [hload]
  dsimp only
  rw [h9, hchk]
  intro h0
  have hbit := congrArg (fun n => n.testBit 0) h0
  simp only [Nat.testBit_lor] at hbit
  simp at hbit

/-- Well-formed 1112-byte MIDX content: correct header (`hash_len` 20),
five chunk records (Pack-Name Lookup, OID Fanout, OID Lookup, Object
Offsets, Pack Names, all at offset 76), no packs and no objects.  The full
file on disk is `exampleContentV ++ specHash exampleContentV`. -/
def exampleContentV : List Nat :=
  [77, 73, 68, 88, 128, 0, 0, 1, 1, 20, 0, 4, 0, 0, 0, 0] ++
  [0x50, 0x4c, 0x4f, 0x4f, 0, 0, 0, 0, 0, 0, 0, 76] ++
  [0x4f, 0x49, 0x44, 0x46, 0, 0, 0, 0, 0, 0, 0, 76] ++
  [0x4f, 0x49, 0x44, 0x4c, 0, 0, 0, 0, 0, 0, 0, 76] ++
  [0x4f, 0x4f, 0x46, 0x46, 0, 0, 0, 0, 0, 0, 0, 76] ++
  [0x50, 0x4e, 0x41, 0x4d, 0, 0, 0, 0, 0, 0, 0, 76] ++
  List.replicate 1036 0

/-- What the loader returns for the truncated `exampleContentV` file. -/
def exampleLoadedV : MidxedGitRaw :=
  ⟨4, 0, 0, some 76, some 76, some 76, some 76, some 76, none⟩

set_option maxRecDepth 1000000 in
/-- Counterexample to claim C9 as stated: the reader does NOT refuse the
byte-dropped file — `load_midxed_git_one` has no checksum check and opens
it — even though the verifier's checksum phase reports the mismatch. -/
theorem midx_verify_truncation_claim_false :
    load_midxed_git_one 32 8 (exampleContentV.dropLast ++ specHash exampleContentV) =
      some exampleLoadedV ∧
    midx_verify_checksum 20 (exampleContentV.dropLast ++ specHash exampleContentV) = 1 ∧
    midx_verify 32 8 (fun _ _ => 0)
      (exampleContentV.dropLast ++ specHash exampleContentV) = 1 := by
  refine ⟨by decide, by decide, by decide⟩

set_option maxRecDepth 1000000 in
/-- C9 witness: `midx_verify_truncated` applied to the concrete file. -/
theorem midx_verify_truncated_witness :
    midx_verify_checksum 20 (exampleContentV.dropLast ++ specHash exampleContentV) = 1 ∧
    midx_verify 32 8 (fun _ _ => 1)
      (exampleContentV.dropLast ++ specHash exampleContentV) ≠ 0 :=
  midx_verify_truncated exampleContentV exampleLoadedV (fun _ _ => 1)
    (by decide) (by decide) (by decide) (by decide)


/-! ## Sparse-index: convert_to_sparse and ensure_full_index -/

/-- `SPARSE_DIR_MODE` (sparse-index code): the directory mode `0o40000`
given to a sparse-directory entry. -/
def SPARSE_DIR_MODE : Nat := 16384

/-- A cache entry as the sparse-index code uses it: path name (bytes),
mode, object id, merge stage and the skip-worktree bit. -/
structure CacheEntry where
  name : List Nat
  ce_mode : Nat
  oid : List Nat
  stage : Nat
  skip_worktree : Bool
deriving DecidableEq, Repr

/-- `S_ISGITLINK`: mode bits 12-15 equal `0o16` (a submodule link). -/
def S_ISGITLINK (m : Nat) : Bool := (m / 4096) % 16 == 14

/-- One entry passes the collapse scan of `convert_to_sparse_rec`
(sparse-index.c): no merge stage, not a gitlink, skip-worktree set. -/
def ceGood (ce : CacheEntry) : Bool :=
  ce.stage == 0 && !S_ISGITLINK ce.ce_mode && ce.skip_worktree

/-- A cache tree: its object id, the number of index entries it covers
(`entry_count`) and its named subtrees (`down`). -/
inductive CTree where
  | mk (oid : List Nat) (entry_count : Nat) (down : List (List Nat × CTree))

def CTree.oid : CTree → List Nat
  | ⟨o, _, _⟩ => o

def CTree.entry_count : CTree → Nat
  | ⟨_, n, _⟩ => n

def CTree.down : CTree → List (List Nat × CTree)
  | ⟨_, _, d⟩ => d

/-- Modelled from the spec: `cache_tree_subtree_pos` (cache-tree code, not
under this repository's files) finds the subtree of `ct` named `dirname`,
or reports a miss. -/
def cache_tree_subtree_pos (ct : CTree) (dirname : List Nat) : Option CTree :=
  (ct.down.find? (fun p => p.1 == dirname)).map (fun p => p.2)

/-- `construct_sparse_dir_entry` (sparse-index.c): a `SPARSE_DIR_MODE`
entry named by the subtree path, carrying the tree's object id, stage 0,
with the skip-worktree bit set. -/
def construct_sparse_dir_entry (sparse_dir : List Nat) (ct : CTree) : CacheEntry :=
  ⟨sparse_dir, SPARSE_DIR_MODE, ct.oid, 0, true⟩

/-- `strchr(base, 47)` of the scan loop: the name component of `base`
before its first slash, or none when `base` has no slash. -/
def firstSlashSplit (base : List Nat) : Option (List Nat) :=
  if base.contains 47 then some (base.takeWhile (fun b => b != 47)) else none

/-- Embedding of `convert_to_sparse_rec` (sparse-index.c lines 28-103).
The `Bool` distinguishes the function entry (pattern check plus collapse
scan) from its `for (i = start; i < end; )` loop.  `pl path = true` stands
for `path_matches_pattern_list(...) != NOT_MATCHED` (the pattern matcher
is outside this repository's files, so it enters as an oracle).  A region
outside the cone whose entries all pass the scan becomes one
sparse-directory entry; otherwise each entry either has no subtree (it is
copied verbatim) or starts a child span of `entry_count` entries that is
converted recursively.  `fuel` bounds the recursion; the C code instead
loops forever on a malformed cache tree whose `entry_count` is 0. -/
def convert_to_sparse_rec (pl : List Nat → Bool) :
    Nat → Bool → List Nat → CTree → List CacheEntry → Option (List CacheEntry)
  | 0, _, _, _, _ => none
  | fuel + 1, true, ct_path, ct, entries =>
    if pl ct_path = false ∧ entries.all ceGood = true then
      some [construct_sparse_dir_entry ct_path ct]
    else convert_to_sparse_rec pl fuel false ct_path ct entries
  | fuel + 1, false, ct_path, ct, entries =>
    match entries with
    | [] => some []
    | ce :: rest =>
      match firstSlashSplit (ce.name.drop ct_path.length) with
      | none => (convert_to_sparse_rec pl fuel false ct_path ct rest).map
          (fun out => ce :: out)
      | some dirname =>
        match cache_tree_subtree_pos ct dirname with
        | none => (convert_to_sparse_rec pl fuel false ct_path ct rest).map
            (fun out => ce :: out)
        | some sub =>
          (convert_to_sparse_rec pl fuel true (ct_path ++ dirname ++ [47]) sub
              ((ce :: rest).take sub.entry_count)).bind (fun conv =>
            (convert_to_sparse_rec pl fuel false ct_path ct
                ((ce :: rest).drop sub.entry_count)).map (fun out => conv ++ out))

/-- The index fields the two conversions touch: the entry array and the
sparse flag. -/
structure IndexState where
  cache : List CacheEntry
  sparse_index : Bool
deriving DecidableEq, Repr

/-- Fuel covering `convert_to_sparse_rec`'s recursion depth on every
well-formed input: the depth is bounded by the entry count plus the
entries' path lengths (each descent into a subtree consumes a slash of
some entry's name, each copy consumes an entry). -/
def convFuel (entries : List CacheEntry) : Nat :=
  2 * (entries.length + (entries.map (fun ce => ce.name.length)).sum) + 2

/-- Embedding of `convert_to_sparse` (sparse-index.c lines 136-188).  The
early-return gates mirror the source in order: split index or an already
sparse index or disabled sparse-checkout/cone config; then the
`settings.sparse_index` repository setting, cone-mode pattern use, and a
usable cache tree (each read from the environment, so they enter as
booleans).  When conversion runs, the cache becomes the converted entry
list and `sparse_index` is set to 1 unconditionally.  (The C recursion instead
loops forever on a malformed cache tree; exhausted fuel leaves the index
unchanged here.) -/
def convert_to_sparse (split core_apply_sparse_checkout core_sparse_checkout_cone
    settings_sparse use_cone_patterns cache_tree_ok : Bool)
    (pl : List Nat → Bool) (ct : CTree) (istate : IndexState) : IndexState :=
  if split || istate.sparse_index || !core_apply_sparse_checkout ||
      !core_sparse_checkout_cone then istate
  else if !settings_sparse then istate
  else if !use_cone_patterns then istate
  else if !cache_tree_ok then istate
  else
    match convert_to_sparse_rec pl (convFuel istate.cache) true [] ct istate.cache with
    | none => istate
    | some out => { cache := out, sparse_index := true }

/-- Expansion of one entry by `ensure_full_index` (sparse-index.c):
a sparse-directory entry is replaced by the entries of its tree — the walk
itself (`read_tree_recursive`, outside this repository's files) enters as
the oracle `readTree`, while the callback `add_path_to_index`
(sparse-index.c lines 198-217) gives each new entry stage 0 and the
skip-worktree bit — and any other entry is kept as is. -/
def expand_one (readTree : List Nat → List Nat → List (List Nat × Nat × List Nat))
    (ce : CacheEntry) : List CacheEntry :=
  if ce.ce_mode == SPARSE_DIR_MODE then
    (readTree ce.oid ce.name).map (fun t => ⟨t.1, t.2.1, t.2.2, 0, true⟩)
  else [ce]

/-- Embedding of `ensure_full_index` (sparse-index.c lines 219-282): a
non-sparse index is untouched; otherwise every entry expands through
`expand_one` and the sparse flag clears. -/
def ensure_full_index
    (readTree : List Nat → List Nat → List (List Nat × Nat × List Nat))
    (istate : IndexState) : IndexState :=
  if istate.sparse_index = false then istate
  else { cache := istate.cache.flatMap (expand_one readTree), sparse_index := false }

/-- The agreement `convert_to_sparse_rec` needs with the tree reader for
the conversion to be reversible: computed in lockstep with the conversion,
it requires, for every region the conversion collapses, that reading the
collapsed tree back yields exactly that region's (name, mode, oid)
triples. -/
def convAgree (readTree : List Nat → List Nat → List (List Nat × Nat × List Nat))
    (pl : List Nat → Bool) :
    Nat → Bool → List Nat → CTree → List CacheEntry → Bool
  | 0, _, _, _, _ => true
  | fuel + 1, true, ct_path, ct, entries =>
    if pl ct_path = false ∧ entries.all ceGood = true then
      readTree ct.oid ct_path ==
        entries.map (fun ce => (ce.name, ce.ce_mode, ce.oid))
    else convAgree readTree pl fuel false ct_path ct entries
  | fuel + 1, false, ct_path, ct, entries =>
    match entries with
    | [] => true
    | ce :: rest =>
      match firstSlashSplit (ce.name.drop ct_path.length) with
      | none => convAgree readTree pl fuel false ct_path ct rest
      | some dirname =>
        match cache_tree_subtree_pos ct dirname with
        | none => convAgree readTree pl fuel false ct_path ct rest
        | some sub =>
          convAgree readTree pl fuel true (ct_path ++ dirname ++ [47]) sub
              ((ce :: rest).take sub.entry_count) &&
            convAgree readTree pl fuel false ct_path ct
              ((ce :: rest).drop sub.entry_count)


theorem goodMapSelf {entries : List CacheEntry} (h : entries.all ceGood = true) :
    entries.map (fun ce =>
      ({ name := ce.name, ce_mode := ce.ce_mode, oid := ce.oid, stage := 0,
         skip_worktree := true } : CacheEntry)) = entries := by
  induction entries with
  | nil => rfl
  | cons ce rest ih =>
    rw [List.all_cons, Bool.and_eq_true] at h
    obtain ⟨hce, hrest⟩ := h
    unfold ceGood at hce
    simp only [Bool.and_eq_true, beq_iff_eq] at hce
    obtain ⟨⟨hst, _⟩, hsk⟩ := hce
    simp only [List.map_cons, ih hrest]
    congr 1
    cases ce
    simp_all

theorem expand_one_sparse (readTree : List Nat → List Nat → List (List Nat × Nat × List Nat))
    (sparse_dir : List Nat) (ct : CTree) :
    expand_one readTree (construct_sparse_dir_entry sparse_dir ct) =
      (readTree ct.oid sparse_dir).map (fun t => ⟨t.1, t.2.1, t.2.2, 0, true⟩) := by
  unfold expand_one construct_sparse_dir_entry
  rw [if_pos (by simp)]

theorem expand_one_plain (readTree : List Nat → List Nat → List (List Nat × Nat × List Nat))
    {ce : CacheEntry} (h : ce.ce_mode ≠ SPARSE_DIR_MODE) :
    expand_one readTree ce = [ce] := by
  unfold expand_one
  rw [if_neg (by simpa using h)]

theorem convert_to_sparse_rec_expand
    (readTree : List Nat → List Nat → List (List Nat × Nat × List Nat))
    (pl : List Nat → Bool) :
    ∀ fuel (phase : Bool) ct_path ct entries out,
    convert_to_sparse_rec pl fuel phase ct_path ct entries = some out →
    convAgree readTree pl fuel phase ct_path ct entries = true →
    (∀ ce ∈ entries, ce.ce_mode ≠ SPARSE_DIR_MODE) →
    out.flatMap (expand_one readTree) = entries := by
  intro fuel
  induction fuel with
  | zero =>
    intro phase ct_path ct entries out hc
    rw [convert_to_sparse_rec.eq_def] at hc
    exact absurd hc (by simp)
  | succ k ih =>
    intro phase ct_path ct entries out hc ha hns
    rcases phase with _ | _
    · -- scan loop
      rw [convert_to_sparse_rec.eq_def] at hc
      rw [convAgree.eq_def] at ha
      rcases entries with _ | ⟨ce, rest⟩
      · dsimp only at hc
        injection hc with hout
        subst hout
        rfl
      · dsimp only at hc ha
        rcases hsl : firstSlashSplit (ce.name.drop ct_path.length) with _ | dirname
        · rw [hsl] at hc ha
          dsimp only at hc ha
          rcases Option.map_eq_some'.mp hc with ⟨out2, hc2, hout⟩
          subst hout
          have hrec := ih false ct_path ct rest out2 hc2 ha
            (fun x hx => hns x (List.mem_cons_of_mem ce hx))
          rw [List.flatMap_cons, hrec, expand_one_plain readTree (hns ce (by simp))]
          rfl
        · rw [hsl] at hc ha
          dsimp only at hc ha
          rcases hsub : cache_tree_subtree_pos ct dirname with _ | sub
          · rw [hsub] at hc ha
            dsimp only at hc ha
            rcases Option.map_eq_some'.mp hc with ⟨out2, hc2, hout⟩
            subst hout
            have hrec := ih false ct_path ct rest out2 hc2 ha
              (fun x hx => hns x (List.mem_cons_of_mem ce hx))
            rw [List.flatMap_cons, hrec, expand_one_plain readTree (hns ce (by simp))]
            rfl
          · rw [hsub] at hc ha
            dsimp only at hc ha
            rw [Bool.and_eq_true] at ha
            obtain ⟨ha1, ha2⟩ := ha
            rcases Option.bind_eq_some.mp hc with ⟨conv, hc1, hc2⟩
            rcases Option.map_eq_some'.mp hc2 with ⟨out2, hc3, hout⟩
            subst hout
            have hr1 := ih true (ct_path ++ dirname ++ [47]) sub
              ((ce :: rest).take sub.entry_count) conv hc1 ha1
              (fun x hx => hns x (List.mem_of_mem_take hx))
            have hr2 := ih false ct_path ct
              ((ce :: rest).drop sub.entry_count) out2 hc3 ha2
              (fun x hx => hns x (List.mem_of_mem_drop hx))
            rw [List.flatMap_append, hr1, hr2, List.take_append_drop]
    · -- function entry: pattern check plus collapse scan
      rw [convert_to_sparse_rec.eq_def] at hc
      rw [convAgree.eq_def] at ha
      dsimp only at hc ha
      by_cases hcond : pl ct_path = false ∧ entries.all ceGood = true
      · rw [if_pos hcond] at hc ha
        injection hc with hout
        subst hout
        rw [show (([construct_sparse_dir_entry ct_path ct]).flatMap
            (expand_one readTree)) = expand_one readTree
              (construct_sparse_dir_entry ct_path ct) from by
          rw [List.flatMap_cons, List.flatMap_nil, List.append_nil]]
        rw [expand_one_sparse, beq_iff_eq.mp ha, List.map_map]
        exact goodMapSelf hcond.2
      · rw [if_neg hcond] at hc ha
        exact ih false ct_path ct entries out hc ha hns


/-- Claim C3 (amended): the contractor never loses an entry that has a
nonzero merge stage, is a gitlink, or lacks the skip-worktree bit — every
such entry appears verbatim in the converted index.  A region containing
one is never itself replaced by a sparse-directory entry; its well-formed
sub-regions may still be collapsed, so the containing span as a whole is
not necessarily emitted unchanged (see the counterexample). -/
theorem convert_to_sparse_rec_bad_verbatim (pl : List Nat → Bool) :
    ∀ fuel (phase : Bool) ct_path ct entries out,
    convert_to_sparse_rec pl fuel phase ct_path ct entries = some out →
    ∀ ce ∈ entries, ceGood ce = false → ce ∈ out := by
  intro fuel
  induction fuel with
  | zero =>
    intro phase ct_path ct entries out hc
    rw [convert_to_sparse_rec.eq_def] at hc
    exact absurd hc (by simp)
  | succ k ih =>
    intro phase ct_path ct entries out hc ce hce hbad
    rcases phase with _ | _
    · rw [convert_to_sparse_rec.eq_def] at hc
      rcases entries with _ | ⟨ce0, rest⟩
      · cases hce
      · dsimp only at hc
        rcases hsl : firstSlashSplit (ce0.name.drop ct_path.length) with _ | dirname
        · rw [hsl] at hc
          dsimp only at hc
          rcases Option.map_eq_some'.mp hc with ⟨out2, hc2, hout⟩
          subst hout
          rcases List.mem_cons.mp hce with rfl | hmem
          · exact List.mem_cons_self _ _
          · exact List.mem_cons_of_mem _ (ih false ct_path ct rest out2 hc2 ce hmem hbad)
        · rw [hsl] at hc
          dsimp only at hc
          rcases hsub : cache_tree_subtree_pos ct dirname with _ | sub
          · rw [hsub] at hc
            dsimp only at hc
            rcases Option.map_eq_some'.mp hc with ⟨out2, hc2, hout⟩
            subst hout
            rcases List.mem_cons.mp hce with rfl | hmem
            · exact List.mem_cons_self _ _
            · exact List.mem_cons_of_mem _
                (ih false ct_path ct rest out2 hc2 ce hmem hbad)
          · rw [hsub] at hc
            dsimp only at hc
            rcases Option.bind_eq_some.mp hc with ⟨conv, hc1, hc2⟩
            rcases Option.map_eq_some'.mp hc2 with ⟨out2, hc3, hout⟩
            subst hout
            have hsplit : ce ∈ (ce0 :: rest).take sub.entry_count ∨
                ce ∈ (ce0 :: rest).drop sub.entry_count := by
              rcases List.mem_append.mp
                ((List.take_append_drop sub.entry_count (ce0 :: rest)).symm ▸ hce) with h | h
              · exact Or.inl h
              · exact Or.inr h
            rcases hsplit with h | h
            · exact List.mem_append_left _
                (ih true (ct_path ++ dirname ++ [47]) sub _ conv hc1 ce h hbad)
            · exact List.mem_append_right _
                (ih false ct_path ct _ out2 hc3 ce h hbad)
    · rw [convert_to_sparse_rec.eq_def] at hc
      dsimp only at hc
      by_cases hcond : pl ct_path = false ∧ entries.all ceGood = true
      · exfalso
        have := List.all_eq_true.mp hcond.2 ce hce
        rw [hbad] at this
        cases this
      · rw [if_neg hcond] at hc
        exact ih false ct_path ct entries out hc ce hce hbad


/-- OID of the stage-2 entry b/c. -/
def oidBC : List Nat := List.replicate 20 1

/-- OID of the clean entry b/e/f. -/
def oidBEF : List Nat := List.replicate 20 2

/-- Cache tree of b/e (covers the one entry b/e/f). -/
def ctBE : CTree := ⟨List.replicate 20 3, 1, []⟩

/-- Cache tree of b (covers b/c and b/e/f, subtree e). -/
def ctBB : CTree := ⟨List.replicate 20 4, 2, [([101], ctBE)]⟩

/-- Root cache tree (subtree b). -/
def ctB : CTree := ⟨List.replicate 20 5, 2, [([98], ctBB)]⟩

/-- Entry b/c carrying merge stage 2. -/
def entryBC : CacheEntry := ⟨[98, 47, 99], 33188, oidBC, 2, true⟩

/-- Clean entry b/e/f with the skip-worktree bit. -/
def entryBEF : CacheEntry := ⟨[98, 47, 101, 47, 102], 33188, oidBEF, 0, true⟩

/-- Pattern oracle: no path matches (the whole index is outside the cone). -/
def plNone : List Nat → Bool := fun _ => false

/-- Counterexample to claim C3 as stated: the span under b holds the
stage-2 entry b/c, so it is not collapsed — but it is not "emitted with
its entries unchanged" either: its clean sub-span b/e/ still collapses,
and the output replaces b/e/f with a sparse directory b/e/. -/
theorem convert_to_sparse_rec_claim_false :
    ceGood entryBC = false ∧
    convert_to_sparse_rec plNone (convFuel [entryBC, entryBEF]) true [] ctB
        [entryBC, entryBEF] =
      some [entryBC, construct_sparse_dir_entry [98, 47, 101, 47] ctBE] ∧
    [entryBC, construct_sparse_dir_entry [98, 47, 101, 47] ctBE] ≠
      [entryBC, entryBEF] := by
  refine ⟨by decide, by decide, by decide⟩

/-- C3 witness: the stage-2 entry b/c survives verbatim in the converted
index of the counterexample input. -/
theorem convert_to_sparse_rec_bad_verbatim_witness :
    entryBC ∈ [entryBC, construct_sparse_dir_entry [98, 47, 101, 47] ctBE] :=
  convert_to_sparse_rec_bad_verbatim plNone (convFuel [entryBC, entryBEF]) true []
    ctB [entryBC, entryBEF]
    [entryBC, construct_sparse_dir_entry [98, 47, 101, 47] ctBE]
    (by decide) entryBC (by decide) (by decide)

/-- Claim C2: converting a full index to sparse and expanding it back
reproduces the original index exactly — same entries, same (canonical)
order — whenever the index holds no sparse directories to begin with and
reading back each collapsed tree yields exactly the entries it replaced
(`convAgree`; collapse already forces every covered entry to carry the
skip-worktree bit, stage 0 and a non-gitlink mode). -/
theorem convert_ensure_roundtrip
    (readTree : List Nat → List Nat → List (List Nat × Nat × List Nat))
    (pl : List Nat → Bool) (ct : CTree) (ist : IndexState)
    (hsp : ist.sparse_index = false)
    (hnosd : ∀ ce ∈ ist.cache, ce.ce_mode ≠ SPARSE_DIR_MODE)
    (hagree : convAgree readTree pl (convFuel ist.cache) true [] ct ist.cache
      = true) :
    ensure_full_index readTree
      (convert_to_sparse false true true true true true pl ct ist) = ist := by
  unfold convert_to_sparse
  rw [hsp]
  rw [if_neg (by decide), if_neg (by decide), if_neg (by decide), if_neg (by decide)]
  rcases hconv : convert_to_sparse_rec pl (convFuel ist.cache) true [] ct ist.cache
    with _ | out
  · dsimp only
    unfold ensure_full_index
    rw [if_pos hsp]
  · dsimp only
    unfold ensure_full_index
    dsimp only
    rw [if_neg (by simp)]
    have hexp := convert_to_sparse_rec_expand readTree pl (convFuel ist.cache)
      true [] ct ist.cache out hconv hagree hnosd
    cases ist with
    | mk cache flag =>
      dsimp only at hexp hsp ⊢
      rw [hexp, hsp]

/-- OID of the entry b/c of the roundtrip example. -/
def oidW1 : List Nat := List.replicate 20 6

/-- OID of the entry b/d of the roundtrip example. -/
def oidW2 : List Nat := List.replicate 20 7

/-- Cache tree of b in the roundtrip example (covers b/c and b/d). -/
def ctWB : CTree := ⟨List.replicate 20 8, 2, []⟩

/-- Root cache tree of the roundtrip example. -/
def ctW : CTree := ⟨List.replicate 20 9, 2, [([98], ctWB)]⟩

/-- Clean skip-worktree entry b/c. -/
def entryWBC : CacheEntry := ⟨[98, 47, 99], 33188, oidW1, 0, true⟩

/-- Clean skip-worktree entry b/d. -/
def entryWBD : CacheEntry := ⟨[98, 47, 100], 33188, oidW2, 0, true⟩

/-- A full index of the two entries under b. -/
def istW : IndexState := ⟨[entryWBC, entryWBD], false⟩

/-- Pattern oracle of the roundtrip example: only the root is in the cone. -/
def plW : List Nat → Bool := fun p => p == ([] : List Nat)

/-- Tree reader of the roundtrip example: the tree of b expands back to
 b/c and b/d; everything else is empty. -/
def readTreeW : List Nat → List Nat → List (List Nat × Nat × List Nat) :=
  fun o n =>
    if o == List.replicate 20 8 && n == [98, 47] then
      [([98, 47, 99], 33188, oidW1), ([98, 47, 100], 33188, oidW2)]
    else []

/-- C2 witness: the concrete two-entry index collapses to one sparse
directory b/ and expands back to itself. -/
theorem convert_ensure_roundtrip_witness :
    ensure_full_index readTreeW
      (convert_to_sparse false true true true true true plW ctW istW) = istW :=
  convert_ensure_roundtrip readTreeW plW ctW istW (by decide) (by decide) (by decide)

/-- Claim C10 (amended): `ensure_full_index` restores the invariant — the
flag clears and, since tree blobs are never directories, no
sparse-directory entry remains — but `convert_to_sparse` sets the flag
unconditionally whenever conversion runs, even when the converted index
contains no sparse-directory entry (see the counterexample), so the
claimed equivalence does not hold after every operation sequence. -/
theorem sparse_index_flag_behavior
    (readTree : List Nat → List Nat → List (List Nat × Nat × List Nat))
    (pl : List Nat → Bool) (ct : CTree) (ist ist2 : IndexState)
    (out : List CacheEntry)
    (hrt : ∀ o n t, t ∈ readTree o n → t.2.1 ≠ SPARSE_DIR_MODE)
    (hsp : ist.sparse_index = true)
    (hsp2 : ist2.sparse_index = false)
    (hconv : convert_to_sparse_rec pl (convFuel ist2.cache) true [] ct ist2.cache
      = some out) :
    (ensure_full_index readTree ist).sparse_index = false ∧
    (∀ ce ∈ (ensure_full_index readTree ist).cache, ce.ce_mode ≠ SPARSE_DIR_MODE) ∧
    (convert_to_sparse false true true true true true pl ct ist2).sparse_index
      = true := by
  refine ⟨?_, ?_, ?_⟩
  · unfold ensure_full_index
    rw [if_neg (by simp [hsp])]
  · unfold ensure_full_index
    rw [if_neg (by simp [hsp])]
    intro ce hce
    dsimp only at hce
    rcases List.mem_flatMap.mp hce with ⟨ce0, hce0, hmem⟩
    unfold expand_one at hmem
    by_cases hm : (ce0.ce_mode == SPARSE_DIR_MODE) = true
    · rw [if_pos hm] at hmem
      rcases List.mem_map.mp hmem with ⟨t, ht, rfl⟩
      exact hrt _ _ t ht
    · rw [if_neg hm] at hmem
      rcases List.mem_cons.mp hmem with rfl | h
      · simpa using hm
      · cases h
  · unfold convert_to_sparse
    rw [hsp2]
    rw [if_neg (by decide), if_neg (by decide), if_neg (by decide),
      if_neg (by decide)]
    rw [hconv]

/-- Entry a, fully checked out (no skip-worktree bit). -/
def entryP : CacheEntry := ⟨[97], 33188, List.replicate 20 10, 0, false⟩

/-- Root cache tree covering the one entry a. -/
def ctP : CTree := ⟨List.replicate 20 11, 1, []⟩

/-- A full index entirely inside the sparse cone. -/
def istP : IndexState := ⟨[entryP], false⟩

/-- Pattern oracle: every path matches (the whole index is in the cone). -/
def plAll : List Nat → Bool := fun _ => true

/-- Counterexample to claim C10 as stated: converting an index that lies
entirely inside the cone collapses nothing, yet sets the sparse flag —
the flag is on while not a single sparse-directory entry exists. -/
theorem convert_to_sparse_flag_claim_false :
    (convert_to_sparse false true true true true true plAll ctP istP).sparse_index
      = true ∧
    ∀ ce ∈ (convert_to_sparse false true true true true true plAll ctP istP).cache,
      ce.ce_mode ≠ SPARSE_DIR_MODE := by
  refine ⟨by decide, by decide⟩

/-- A sparse index holding one sparse-directory entry b/. -/
def istS : IndexState := ⟨[construct_sparse_dir_entry [98, 47] ctWB], true⟩

/-- C10 witness: `sparse_index_flag_behavior` evaluated on the concrete
sparse index `istS` and the concrete conversion of `istP`. -/
theorem sparse_index_flag_behavior_witness :
    (ensure_full_index readTreeW istS).sparse_index = false ∧
    (∀ ce ∈ (ensure_full_index readTreeW istS).cache,
      ce.ce_mode ≠ SPARSE_DIR_MODE) ∧
    (convert_to_sparse false true true true true true plAll ctP istP).sparse_index
      = true :=
  sparse_index_flag_behavior readTreeW plAll ctP istS istP [entryP]
    (fun o n t ht => by
      unfold readTreeW at ht
      by_cases hc : (o == List.replicate 20 8 && n == [98, 47]) = true
      · rw [if_pos hc] at ht
        simp only [List.mem_cons, List.not_mem_nil, or_false] at ht
        rcases ht with rfl | rfl <;> decide
      · rw [if_neg hc] at ht
        cases ht)
    (by decide) (by decide) (by decide)


end GitMidx
